import Mathlib

/-!
Verification development for the structured-matrix core of gravmag
(src/gravmag/convolve.py): BTTB assembly, circulant embedding, spectral
diagonalization of the embedding BCCB, and the FFT-based fast
matrix-vector product.

Scalars of the numpy arrays are modelled as real numbers (the claims are
about exact arithmetic), spectra as complex numbers.  One-dimensional
numpy arrays become lists, two-dimensional ones become a `Grid` record
carrying its shape and an entry function.  Fallible operations (those
that validate input or that raise in Python) return `Except String`.
-/

namespace Gravmag

/-- A dense two-dimensional array with dynamically tracked shape, mirroring a
numpy 2D array.  Reads outside the tracked shape are irrelevant; theorems
quantify over in-range indices only. -/
structure Grid (R : Type) where
  rows : ℕ
  cols : ℕ
  entry : ℕ → ℕ → R

/-- Transpose of a grid (numpy .T). -/
def transpose_grid {R : Type} (A : Grid R) : Grid R :=
  ⟨A.cols, A.rows, fun k l => A.entry l k⟩

/-- Number of columns of a rectangular table stored as a list of rows
(numpy shape[1]). -/
def width (xss : List (List ℝ)) : ℕ :=
  match xss with
  | [] => 0
  | c :: _ => c.length

/-- Modelled from the spec: the structural checks of the external check
module (spec section 6) consumed as check.Toeplitz_metadata in the source.
The symmetry tag must be recognized, the column non-empty, and a row is
supplied exactly for generic symmetry, with one element fewer than the
column (the diagonal element is excluded). -/
def Toeplitz_metadata_ok (symmetry : String) (column : List ℝ)
    (row : Option (List ℝ)) : Bool :=
  (symmetry == "gene" || symmetry == "symm" || symmetry == "skew")
  && decide (0 < column.length)
  && (match row with
      | some r => symmetry == "gene" && (r.length + 1 == column.length)
      | none => !(symmetry == "gene"))

/-- Modelled from the spec: the structural checks of the external check
module (spec section 6) consumed as check.BTTB_metadata in the source.
Both symmetry tags must be recognized, nblocks positive, the columns table
rectangular and non-degenerate with the row count demanded by the
structure symmetry (Q, or 2Q-1 for generic structure), and the rows table
present exactly for generic block symmetry, matching the columns table. -/
def BTTB_metadata_ok (ss sb : String) (Q : ℕ) (columns : List (List ℝ))
    (rows : Option (List (List ℝ))) : Bool :=
  (ss == "gene" || ss == "symm" || ss == "skew")
  && (sb == "gene" || sb == "symm" || sb == "skew")
  && decide (0 < Q)
  && decide (0 < width columns)
  && columns.all (fun c => c.length == width columns)
  && (columns.length == (if ss == "gene" then 2 * Q - 1 else Q))
  && (match rows with
      | some rs => sb == "gene" && (rs.length == columns.length)
          && rs.all (fun r => r.length + 1 == width columns)
      | none => !(sb == "gene"))

/-- The per-block generator vector that generic_BTTB concatenates before the
gather: the reflected row (reversed, with the sign demanded by the block
symmetry, or the explicit row reversed for generic blocks) followed by the
column.  This is np.concatenate((column[-1:0:-1], column)),
np.concatenate((-column[-1:0:-1], column)) or
np.concatenate((row[::-1], column)) in the source. -/
def toeplitz_gen (sb : String) (column row : List ℝ) : List ℝ :=
  if sb = "symm" then (column.drop 1).reverse ++ column
  else if sb = "skew" then ((column.drop 1).reverse).map (fun x => -x) ++ column
  else row.reverse ++ column

/-- Placeholder rows used when the source loops ignore the rows argument
(non-generic block symmetry): same length as columns so that zipWith keeps
every column. -/
def dummy_rows (columns : List (List ℝ)) : List (List ℝ) :=
  columns.map (fun _ => [])

/-- The concatenated block list of generic_BTTB (variable concatenated_blocks
in the source, one branch per symmetry pattern): for symmetric or
skew-symmetric structure, the reversed tail of the block column (negated for
skew) followed by the block column; for generic structure, the reversed
block row followed by the block column. -/
def concatenated_blocks (ss sb : String) (Q : ℕ) (columns : List (List ℝ))
    (rows : Option (List (List ℝ))) : List (List ℝ) :=
  let rs := match rows with
    | some rs => rs
    | none => dummy_rows columns
  if ss = "symm" ∨ ss = "skew" then
    let blocks := List.zipWith (toeplitz_gen sb) columns rs
    (if ss = "skew" then ((blocks.drop 1).reverse).map (fun b => b.map (fun x => -x))
     else (blocks.drop 1).reverse) ++ blocks
  else
    let blocks_1j := List.zipWith (toeplitz_gen sb) (columns.take Q) (rs.take Q)
    let blocks_i1 := List.zipWith (toeplitz_gen sb) (columns.drop Q) (rs.drop Q)
    blocks_i1.reverse ++ blocks_1j

/-- Shallow embedding of generic_BTTB (convolve.py lines 59-302).  The
double outer-sum gather T = np.hstack(np.hstack(concatenated_blocks[indices]))
reads, at dense position (a, b), the block concatenated_blocks[a/P + (Q-1 - b/P)]
at in-block position a%P + (P-1 - b%P); the embedding states that gather
directly as the entry function. -/
def generic_BTTB (ss sb : String) (Q : ℕ) (columns : List (List ℝ))
    (rows : Option (List (List ℝ))) (check_input : Bool) :
    Except String (Grid ℝ) :=
  if check_input = true ∧ BTTB_metadata_ok ss sb Q columns rows = false then
    .error "BTTB metadata check failed"
  else
    let P := width columns
    let cb := concatenated_blocks ss sb Q columns rows
    .ok ⟨Q * P, Q * P, fun a b =>
      (cb.getD (a / P + (Q - 1 - b / P)) []).getD (a % P + (P - 1 - b % P)) 0⟩

/-- First column of the embedding circulant built by Circulant_from_Toeplitz:
the column, one zero, then the reversed row, the row being derived from the
column for symmetric and skew-symmetric Toeplitz matrices. -/
def Circulant_column (symmetry : String) (column : List ℝ)
    (row : Option (List ℝ)) : List ℝ :=
  if symmetry = "symm" then column ++ [0] ++ (column.drop 1).reverse
  else if symmetry = "skew" then
    column ++ [0] ++ ((column.drop 1).reverse).map (fun x => -x)
  else column ++ [0] ++ ((row.getD []).reverse)

/-- Shallow embedding of Circulant_from_Toeplitz (convolve.py lines 305-393).
When full is requested, the source gathers C[ind_col + ind_row] where the
index matrix holds i - j in the range (-2P, 2P); numpy resolves the negative
indices from the end of C, i.e. position (i - j) mod 2P. -/
def Circulant_from_Toeplitz (symmetry : String) (column : List ℝ)
    (row : Option (List ℝ)) (full check_input : Bool) :
    Except String (Grid ℝ ⊕ List ℝ) :=
  if check_input = true ∧ Toeplitz_metadata_ok symmetry column row = false then
    .error "Toeplitz metadata check failed"
  else
    let P := column.length
    let C := Circulant_column symmetry column row
    if full then
      .ok (.inl ⟨2 * P, 2 * P, fun i j =>
        C.getD (((i : ℤ) - (j : ℤ)) % ((2 * P : ℕ) : ℤ)).toNat 0⟩)
    else .ok (.inr C)

/-- Shallow embedding of BCCB_from_BTTB (convolve.py lines 527-655).  After
the optional metadata validation, the rows-is-None branch executes
Circulant_from_Toeplitz(column) (line 570) and the other branch
Circulant_from_Toeplitz(column, rows) (line 616).  Circulant_from_Toeplitz
is defined with three required positional parameters (symmetry, column,
row), so both calls raise TypeError in Python before any block is built;
with an empty columns table the subsequent np.stack of an empty list would
raise instead.  The shape checks at lines 604-612 run unconditionally
(they sit outside the check_input guard), which the embedding mirrors.
The full flag is validated but never consulted when building the result. -/
def BCCB_from_BTTB (ss sb : String) (Q : ℕ) (columns : List (List ℝ))
    (rows : Option (List (List ℝ))) (full check_input : Bool) :
    Except String (Grid ℝ ⊕ List ℝ) :=
  if check_input = true ∧ BTTB_metadata_ok ss sb Q columns rows = false then
    .error "BTTB metadata check failed"
  else
    match rows with
    | none =>
      if columns.length = 0 then
        .error "ValueError: need at least one array to stack"
      else
        .error "TypeError: Circulant_from_Toeplitz missing 2 required positional arguments: column and row"
    | some rs =>
      if columns.length ≠ rs.length then
        .error "the number of rows in rows and columns must be equal to each other"
      else if width columns ≠ width rs + 1 then
        .error "the number of columns in columns must be equal that in rows + 1"
      else if columns.length = 0 then
        .error "ValueError: need at least one array to stack"
      else
        .error "TypeError: Circulant_from_Toeplitz missing 1 required positional argument: row"

/-- The dictionary returned by embedding_BCCB_first_column. -/
structure BCCB0 where
  first_column : List ℝ
  nblocks : ℕ
  npoints_per_block : ℕ
  symmetry : String

/-- np.split(b0, nblocks): the nblocks consecutive pieces of b0, each of
length npoints_per_block when b0 has nblocks * npoints_per_block
elements. -/
def split_blocks (b0 : List ℝ) (Q P : ℕ) : List (List ℝ) :=
  (List.range Q).map (fun i => (b0.drop (i * P)).take P)

/-- The four pure symmetry tags accepted by the compact path. -/
def pure_symmetries : List String :=
  ["skew-skew", "skew-symm", "symm-skew", "symm-symm"]

/-- The list of 2*nblocks half-block pieces assembled by
embedding_BCCB_first_column (source variable c0 before np.concatenate):
per symmetry branch, the forward half-blocks over b_parts, one zero block,
and the backward half-blocks over the reversed tail of b_parts. -/
def compact_pieces (b_parts : List (List ℝ)) (npoints_per_block : ℕ)
    (symmetry : String) : List (List ℝ) :=
  if symmetry = "skew-skew" then
    b_parts.map (fun bi => bi ++ [0] ++ ((bi.drop 1).reverse).map (fun x => -x))
      ++ [List.replicate (2 * npoints_per_block) 0]
      ++ ((b_parts.drop 1).reverse).map
          (fun bi => (bi.map (fun x => -x)) ++ [0] ++ (bi.drop 1).reverse)
  else if symmetry = "skew-symm" then
    b_parts.map (fun bi => bi ++ [0] ++ (bi.drop 1).reverse)
      ++ [List.replicate (2 * npoints_per_block) 0]
      ++ ((b_parts.drop 1).reverse).map
          (fun bi => (bi.map (fun x => -x)) ++ [0]
            ++ ((bi.drop 1).reverse).map (fun x => -x))
  else if symmetry = "symm-skew" then
    b_parts.map (fun bi => bi ++ [0] ++ ((bi.drop 1).reverse).map (fun x => -x))
      ++ [List.replicate (2 * npoints_per_block) 0]
      ++ ((b_parts.drop 1).reverse).map
          (fun bi => bi ++ [0] ++ ((bi.drop 1).reverse).map (fun x => -x))
  else
    b_parts.map (fun bi => bi ++ [0] ++ (bi.drop 1).reverse)
      ++ [List.replicate (2 * npoints_per_block) 0]
      ++ ((b_parts.drop 1).reverse).map
          (fun bi => bi ++ [0] ++ (bi.drop 1).reverse)

/-- Shallow embedding of embedding_BCCB_first_column (convolve.py lines
663-769).  The validation has no toggle in the source (it always runs).
After splitting b0 into nblocks parts, each symmetry branch of
compact_pieces emits the forward half-blocks, one zero block of length
2*npoints_per_block, and the backward half-blocks over the reversed tail of
the parts (bi[:0:-1] is the reversed tail of bi); the pieces are then
concatenated into a single vector. -/
def embedding_BCCB_first_column (b0 : List ℝ) (nblocks npoints_per_block : ℕ)
    (symmetry : String) : Except String BCCB0 :=
  if ¬ 0 < nblocks then .error "nblocks must be a positive integer"
  else if ¬ 0 < npoints_per_block then
    .error "npoints_per_block must be a positive integer"
  else if b0.length ≠ nblocks * npoints_per_block then
    .error "b0 must have nblocks*npoints_per_block elements"
  else if symmetry ∉ pure_symmetries then .error "invalid symmetry"
  else
    .ok ⟨(compact_pieces (split_blocks b0 nblocks npoints_per_block)
        npoints_per_block symmetry).flatten,
      nblocks, npoints_per_block, symmetry⟩

/-- Modelled from the spec: the kernel exp(-2 pi i z / n) of the discrete
Fourier transform computed by the external scipy fft2 routine. -/
noncomputable def wexp (n : ℕ) (z : ℤ) : ℂ :=
  Complex.exp (-(2 * Real.pi * Complex.I) * z / n)

/-- Modelled from the spec: the orthonormal two-dimensional discrete Fourier
transform (scipy fft2 with norm="ortho"): entry (k, l) sums
A(j, s) exp(-2 pi i (j k / rows + s l / cols)) over the grid, scaled by
1 / sqrt(rows * cols). -/
noncomputable def fft2 (A : Grid ℂ) : Grid ℂ :=
  ⟨A.rows, A.cols, fun k l =>
    (Complex.ofReal (Real.sqrt ((A.rows : ℝ) * (A.cols : ℝ))))⁻¹ *
      ∑ j in Finset.range A.rows, ∑ s in Finset.range A.cols,
        A.entry j s * wexp A.rows ((j : ℤ) * k) * wexp A.cols ((s : ℤ) * l)⟩

/-- Modelled from the spec: the orthonormal inverse two-dimensional discrete
Fourier transform (scipy ifft2 with norm="ortho"), with the conjugate
kernel and the same normalization. -/
noncomputable def ifft2 (A : Grid ℂ) : Grid ℂ :=
  ⟨A.rows, A.cols, fun j1 j2 =>
    (Complex.ofReal (Real.sqrt ((A.rows : ℝ) * (A.cols : ℝ))))⁻¹ *
      ∑ k1 in Finset.range A.rows, ∑ k2 in Finset.range A.cols,
        A.entry k1 k2 * wexp A.rows (-((j1 : ℤ) * k1)) * wexp A.cols (-((j2 : ℤ) * k2))⟩

/-- The dictionary returned by eigenvalues_BCCB. -/
structure BCCBEigen where
  eigenvalues : Grid ℂ
  ordering : String
  nblocks : ℕ
  npoints_per_block : ℕ
  symmetry : String

/-- np.reshape(c0, (m, n)) as a complex grid: row-major fill. -/
def reshape_row (c0 : List ℝ) (m n : ℕ) : Grid ℂ :=
  ⟨m, n, fun k l => ((c0.getD (k * n + l) 0 : ℝ) : ℂ)⟩

/-- Pointwise scaling of a complex grid. -/
noncomputable def scale_grid (c : ℂ) (A : Grid ℂ) : Grid ℂ :=
  ⟨A.rows, A.cols, fun k l => c * A.entry k l⟩

/-- The nine symmetry tags accepted by eigenvalues_BCCB. -/
def nine_symmetries : List String :=
  ["skew-skew", "skew-symm", "symm-skew", "symm-symm", "gene-symm",
   "symm-gene", "gene-skew", "skew-gene", "gene-gene"]

/-- Shallow embedding of eigenvalues_BCCB (convolve.py lines 772-864).  The
validation has no toggle in the source.  The first column is reshaped to
(2*nblocks, 2*npoints_per_block) row-major ("row" ordering) or to its
transpose ("column" ordering), and the eigenvalue matrix is
sqrt(4*nblocks*npoints_per_block) times the orthonormal 2D DFT of that
grid. -/
noncomputable def eigenvalues_BCCB (B : BCCB0) (ordering : String) :
    Except String BCCBEigen :=
  if ¬ 0 < B.nblocks then .error "nblocks must be a positive integer"
  else if ¬ 0 < B.npoints_per_block then
    .error "npoints_per_block must be a positive integer"
  else if B.first_column.length ≠ 4 * B.nblocks * B.npoints_per_block then
    .error "c0 must have 4*nblocks*npoints_per_block elements"
  else if B.symmetry ∉ nine_symmetries then .error "invalid symmetry"
  else if ordering ≠ "row" ∧ ordering ≠ "column" then
    .error "invalid ordering"
  else
    let G := if ordering = "row"
      then reshape_row B.first_column (2 * B.nblocks) (2 * B.npoints_per_block)
      else transpose_grid
        (reshape_row B.first_column (2 * B.nblocks) (2 * B.npoints_per_block))
    .ok ⟨scale_grid
        (Complex.ofReal (Real.sqrt ((4 * B.nblocks * B.npoints_per_block : ℕ) : ℝ)))
        (fft2 G),
      ordering, B.nblocks, B.npoints_per_block, B.symmetry⟩

/-- Shallow embedding of transposition_factor (convolve.py lines 867-886):
a lookup defined for the four pure symmetries only. -/
def transposition_factor (symmetry : String) : Except String ℤ :=
  if symmetry ∉ pure_symmetries then .error "invalid symmetry"
  else if symmetry = "skew-skew" then .ok 1
  else if symmetry = "skew-symm" then .ok (-1)
  else if symmetry = "symm-skew" then .ok (-1)
  else .ok 1

/-- The zero-padded right-hand grid of product_BCCB_vector for "row"
ordering: v reshaped to (nblocks, npoints_per_block) row-major, then padded
with trailing zero columns and rows to (2*nblocks, 2*npoints_per_block). -/
noncomputable def pad_grid_row (v : List ℝ) (Q P : ℕ) : Grid ℂ :=
  ⟨2 * Q, 2 * P, fun b1 b2 =>
    if b1 < Q ∧ b2 < P then ((v.getD (b1 * P + b2) 0 : ℝ) : ℂ) else 0⟩

/-- The zero-padded right-hand grid of product_BCCB_vector for "column"
ordering: the transpose of the reshape, padded to
(2*npoints_per_block, 2*nblocks). -/
noncomputable def pad_grid_col (v : List ℝ) (Q P : ℕ) : Grid ℂ :=
  ⟨2 * P, 2 * Q, fun x y =>
    if x < P ∧ y < Q then ((v.getD (y * P + x) 0 : ℝ) : ℂ) else 0⟩

/-- Pointwise (Hadamard) product of two grids, with the shape of the
first. -/
noncomputable def hadamard (A B : Grid ℂ) : Grid ℂ :=
  ⟨A.rows, A.cols, fun i j => A.entry i j * B.entry i j⟩

/-- Shallow embedding of product_BCCB_vector (convolve.py lines 889-973).
The dictionary fields are unpacked inside the "if check_input" block in the
source, so with check_input disabled the later line "if ordering == ..."
reads an unbound local and Python raises NameError; the embedding returns
that error.  With validation enabled and passing, the padded grid is
transformed, multiplied pointwise with the eigenvalue matrix,
inverse-transformed, and the real part of the leading quadrant is flattened
(row-major for "row" ordering, transposed back for "column"). -/
noncomputable def product_BCCB_vector (E : BCCBEigen) (v : List ℝ)
    (check_input : Bool) : Except String (List ℝ) :=
  if check_input = true then
    if E.ordering ≠ "row" ∧ E.ordering ≠ "column" then
      .error "invalid ordering"
    else if ¬ 0 < E.nblocks then
      .error "nblocks must be a positive integer"
    else if ¬ 0 < E.npoints_per_block then
      .error "npoints_per_block must be a positive integer"
    else if E.ordering = "row"
        ∧ ¬ (E.eigenvalues.rows = 2 * E.nblocks
             ∧ E.eigenvalues.cols = 2 * E.npoints_per_block) then
      .error "eigenvalues must have shape 2*nblocks x 2*npoints_per_block"
    else if E.ordering = "column"
        ∧ ¬ (E.eigenvalues.rows = 2 * E.npoints_per_block
             ∧ E.eigenvalues.cols = 2 * E.nblocks) then
      .error "eigenvalues must have shape 2*npoints_per_block x 2*nblocks"
    else if v.length ≠ E.nblocks * E.npoints_per_block then
      .error "v must have nblocks*npoints_per_block elements"
    else
      let Q := E.nblocks
      let P := E.npoints_per_block
      let V := if E.ordering = "row" then pad_grid_row v Q P
        else pad_grid_col v Q P
      let W := ifft2 (hadamard E.eigenvalues (fft2 V))
      if E.ordering = "row" then
        .ok ((List.range (Q * P)).map (fun a => (W.entry (a / P) (a % P)).re))
      else
        .ok ((List.range (Q * P)).map (fun a => (W.entry (a % P) (a / P)).re))
  else
    .error "NameError: name ordering is not defined"

/-- Modelled from the spec: the circulant embedding of one Toeplitz block,
expressed on the block generator used by generic_BTTB.  A generator g of
length 2P-1 stores the reflected reversed row in its first P-1 entries and
the column in the rest, so the embedding first column
(column, one zero, reversed row) is g.drop (P-1) ++ 0 ++ g.take (P-1),
exactly the column Circulant_from_Toeplitz builds. -/
def circ_embed_gen (P : ℕ) (g : List ℝ) : List ℝ :=
  g.drop (P - 1) ++ [0] ++ g.take (P - 1)

/-- Modelled from the spec: the first block column of the embedding BCCB of
section 4.3, which the source BCCB_from_BTTB was meant to assemble (its
implementation raises TypeError, see BCCB_from_BTTB): the Q forward blocks
are the circulant embeddings of the block column of T (the last Q
generators of concatenated_blocks), then one all-zero spacer block, then
the Q-1 backward blocks, the circulant embeddings of the block row of T in
reverse order (the first Q-1 generators of concatenated_blocks in their
stored order). -/
def BCCB_blocks_spec (ss sb : String) (Q : ℕ) (columns : List (List ℝ))
    (rows : Option (List (List ℝ))) : List (List ℝ) :=
  let P := width columns
  let cb := concatenated_blocks ss sb Q columns rows
  ((cb.drop (Q - 1)).map (circ_embed_gen P)) ++ [List.replicate (2 * P) 0]
    ++ ((cb.take (Q - 1)).map (circ_embed_gen P))

/-- Modelled from the spec: the first column of the embedding BCCB, the
flattening of the 2Q blocks of BCCB_blocks_spec. -/
def BCCB_first_column_spec (ss sb : String) (Q : ℕ) (columns : List (List ℝ))
    (rows : Option (List (List ℝ))) : List ℝ :=
  (BCCB_blocks_spec ss sb Q columns rows).flatten

/-- Modelled from the spec: the dense Toeplitz matrix built directly from a
column and a row (the row excluding the diagonal element): entry (i, j) is
column (i - j) on and below the diagonal and row (j - i - 1) above it. -/
def dense_Toeplitz (column row : List ℝ) : Grid ℝ :=
  ⟨column.length, column.length, fun i j =>
    if j ≤ i then column.getD (i - j) 0 else row.getD (j - i - 1) 0⟩

/-- The row derived from (or supplied with) a Toeplitz column, per the
symmetry tag: the tail of the column for symmetric, its negation for
skew-symmetric, the explicit row otherwise. -/
def derived_row (symmetry : String) (column : List ℝ)
    (row : Option (List ℝ)) : List ℝ :=
  if symmetry = "symm" then column.drop 1
  else if symmetry = "skew" then (column.drop 1).map (fun x => -x)
  else row.getD []

/-! ### List indexing helpers -/

lemma getD_append_left {A : Type} (l1 l2 : List A) (n : ℕ) (d : A)
    (h : n < l1.length) : (l1 ++ l2).getD n d = l1.getD n d := by
  simp [List.getD_eq_getElem?_getD, List.getElem?_append, h]

lemma getD_append_right {A : Type} (l1 l2 : List A) (n : ℕ) (d : A)
    (h : l1.length ≤ n) : (l1 ++ l2).getD n d = l2.getD (n - l1.length) d := by
  simp [List.getD_eq_getElem?_getD, List.getElem?_append_right h]

lemma getD_reverse {A : Type} (l : List A) (n : ℕ) (d : A)
    (h : n < l.length) :
    l.reverse.getD n d = l.getD (l.length - 1 - n) d := by
  simp [List.getD_eq_getElem?_getD, List.getElem?_reverse h]

lemma getD_map_neg (l : List ℝ) (n : ℕ) :
    (l.map (fun x => -x)).getD n 0 = -(l.getD n 0) := by
  rcases Nat.lt_or_ge n l.length with h | h
  · simp [List.getD_eq_getElem?_getD, List.getElem?_map, l.getElem?_eq_getElem h]
  · rw [List.getD_eq_getElem?_getD, List.getD_eq_getElem?_getD,
      List.getElem?_eq_none h, List.getElem?_eq_none (by simpa using h)]
    simp

lemma getD_drop {A : Type} (l : List A) (k n : ℕ) (d : A) :
    (l.drop k).getD n d = l.getD (k + n) d := by
  simp [List.getD_eq_getElem?_getD, List.getElem?_drop]

lemma getD_take {A : Type} (l : List A) (k n : ℕ) (d : A) (h : n < k) :
    (l.take k).getD n d = l.getD n d := by
  simp [List.getD_eq_getElem?_getD, List.getElem?_take, h]

lemma getD_map_list {A B : Type} (f : A → B) (l : List A) (n : ℕ)
    (d : B) (d0 : A) (h : n < l.length) :
    (l.map f).getD n d = f (l.getD n d0) := by
  simp [List.getD_eq_getElem?_getD, List.getElem?_map, l.getElem?_eq_getElem h]

lemma flatten_length_uniform {A : Type} (L : List (List A)) (w : ℕ)
    (hw : ∀ l ∈ L, l.length = w) :
    L.flatten.length = L.length * w := by
  induction L with
  | nil => simp
  | cons hd tl ih =>
    have hhd : hd.length = w := hw hd (by simp)
    have htl : ∀ l ∈ tl, l.length = w := fun l hl => hw l (by simp [hl])
    simp [List.flatten_cons, hhd, ih htl, Nat.succ_mul, Nat.add_comm]

lemma flatten_getD (L : List (List ℝ)) (w : ℕ)
    (hw : ∀ l ∈ L, l.length = w) (m s : ℕ) (hm : m < L.length) (hs : s < w) :
    L.flatten.getD (m * w + s) 0 = (L.getD m []).getD s 0 := by
  induction L generalizing m with
  | nil => simp at hm
  | cons hd tl ih =>
    have hhd : hd.length = w := hw hd (by simp)
    rcases m with _ | m
    · rw [List.flatten_cons, getD_append_left _ _ _ _ (by omega)]
      simp
    · rw [List.flatten_cons, getD_append_right _ _ _ _ (by
        have : w ≤ (m + 1) * w := Nat.le_mul_of_pos_left w (Nat.succ_pos m)
        omega)]
      have harith : (m + 1) * w + s - hd.length = m * w + s := by
        rw [hhd]; ring_nf; omega
      rw [harith]
      have htl : ∀ l ∈ tl, l.length = w := fun l hl => hw l (by simp [hl])
      rw [ih htl m (by simpa using hm)]
      simp

/-! ### split_blocks facts -/

lemma split_blocks_length (b0 : List ℝ) (Q P : ℕ) :
    (split_blocks b0 Q P).length = Q := by
  simp [split_blocks]

lemma split_blocks_getD (b0 : List ℝ) (Q P m : ℕ) (hm : m < Q) :
    (split_blocks b0 Q P).getD m [] = (b0.drop (m * P)).take P := by
  simp [split_blocks, List.getD_eq_getElem?_getD, List.getElem?_map,
    List.getElem?_range hm]

lemma split_blocks_block_length (b0 : List ℝ) (Q P m : ℕ)
    (hb : b0.length = Q * P) (hm : m < Q) :
    ((split_blocks b0 Q P).getD m []).length = P := by
  rw [split_blocks_getD b0 Q P m hm]
  simp only [List.length_take, List.length_drop, hb]
  have h1 : (m + 1) * P ≤ Q * P := Nat.mul_le_mul_right P hm
  rw [Nat.succ_mul] at h1
  omega

lemma split_blocks_entry (b0 : List ℝ) (Q P m s : ℕ)
    (hm : m < Q) (hs : s < P) :
    ((split_blocks b0 Q P).getD m []).getD s 0 = b0.getD (m * P + s) 0 := by
  rw [split_blocks_getD b0 Q P m hm, getD_take _ _ _ _ hs, getD_drop]

/-- Helper: membership of the four pure tags in the nine accepted tags. -/
lemma pure_mem_nine {s : String} (h : s ∈ pure_symmetries) :
    s ∈ nine_symmetries := by
  fin_cases h <;> decide

/-! ### Claim C6 -/

/-- C6 counterexample: with nblocks = 1, npoints_per_block = 2,
symmetry "symm-symm" and b0 = [2, 1], the first column returned by
embedding_BCCB_first_column is not the list [2,1,0,1, 0,0, 2,1] stated by
the claim: the zero spacer block has length 2*npoints_per_block = 4 and for
nblocks = 1 there are no backward blocks, so positions 6 and 7 hold 0. -/
theorem C6_counterexample :
    ∃ B, embedding_BCCB_first_column [2, 1] 1 2 "symm-symm" = .ok B
      ∧ B.first_column ≠ [2, 1, 0, 1, 0, 0, 2, 1] := by
  refine ⟨⟨[2, 1, 0, 1, 0, 0, 0, 0], 1, 2, "symm-symm"⟩, ?_, ?_⟩
  · norm_num [embedding_BCCB_first_column, compact_pieces, split_blocks,
      pure_symmetries, List.range_succ,
      show (("symm-symm" = "skew-skew")) = False by decide,
      show (("symm-symm" = "skew-symm")) = False by decide,
      show (("symm-symm" = "symm-skew")) = False by decide,
      show ((2 : ℕ) * 2) = 4 by decide, List.replicate]
  · intro h
    have : (0 : ℝ) = 2 := by
      have := congrArg (fun l => List.getD l 6 0) h
      simpa using this
    norm_num at this

/-- C6 amended: with nblocks = 1, npoints_per_block = 2, symmetry
"symm-symm" and b0 = [2, 1], embedding_BCCB_first_column returns a
first_column of length 8 equal to [2,1,0,1, 0,0,0,0]: the forward block
[2,1,0,1], then the zero spacer block of length 2*npoints_per_block = 4;
with nblocks = 1 there are no backward blocks. -/
theorem C6_amended_first_column :
    embedding_BCCB_first_column [2, 1] 1 2 "symm-symm"
      = .ok ⟨[2, 1, 0, 1, 0, 0, 0, 0], 1, 2, "symm-symm"⟩
    ∧ ([2, 1, 0, 1, 0, 0, 0, 0] : List ℝ).length = 8 := by
  constructor
  · norm_num [embedding_BCCB_first_column, compact_pieces, split_blocks,
      pure_symmetries, List.range_succ,
      show (("symm-symm" = "skew-skew")) = False by decide,
      show (("symm-symm" = "skew-symm")) = False by decide,
      show (("symm-symm" = "symm-skew")) = False by decide,
      show ((2 : ℕ) * 2) = 4 by decide, List.replicate]
  · simp

/-! ### Claim C10 -/

/-- Helper: for every accepted pure symmetry, every block of the compact
first column has length 2 * npoints_per_block and there are 2 * nblocks
blocks, so the whole first column has length 4 * nblocks *
npoints_per_block. -/
lemma compact_pieces_length (parts : List (List ℝ)) (P : ℕ)
    (symmetry : String) (hne : 0 < parts.length) :
    (compact_pieces parts P symmetry).length = 2 * parts.length := by
  rw [compact_pieces]
  split <;> try split <;> try split
  all_goals simp; omega

lemma compact_pieces_block_lengths (parts : List (List ℝ)) (P : ℕ)
    (symmetry : String) (hP : 0 < P) (hp : ∀ l ∈ parts, l.length = P) :
    ∀ l ∈ compact_pieces parts P symmetry, l.length = 2 * P := by
  have hfwd : ∀ f : List ℝ → List ℝ,
      (∀ bi : List ℝ, bi.length = P → (f bi).length = 2 * P) →
      ∀ l ∈ parts.map f, l.length = 2 * P := by
    intro f hf l hl
    simp only [List.mem_map] at hl
    obtain ⟨bi, hbi, rfl⟩ := hl
    exact hf bi (hp bi hbi)
  have hbwd : ∀ f : List ℝ → List ℝ,
      (∀ bi : List ℝ, bi.length = P → (f bi).length = 2 * P) →
      ∀ l ∈ ((parts.drop 1).reverse).map f, l.length = 2 * P := by
    intro f hf l hl
    simp only [List.mem_map, List.mem_reverse] at hl
    obtain ⟨bi, hbi, rfl⟩ := hl
    exact hf bi (hp bi (List.mem_of_mem_drop hbi))
  have hshape1 : ∀ bi : List ℝ, bi.length = P →
      (bi ++ [(0 : ℝ)] ++ (bi.drop 1).reverse).length = 2 * P := by
    intro bi h; simp [h]; omega
  have hshape2 : ∀ bi : List ℝ, bi.length = P →
      (bi ++ [(0 : ℝ)] ++ ((bi.drop 1).reverse).map (fun x => -x)).length
        = 2 * P := by
    intro bi h; simp [h]; omega
  have hshape3 : ∀ bi : List ℝ, bi.length = P →
      ((bi.map (fun x => -x)) ++ [(0 : ℝ)] ++ (bi.drop 1).reverse).length
        = 2 * P := by
    intro bi h; simp [h]; omega
  have hshape4 : ∀ bi : List ℝ, bi.length = P →
      ((bi.map (fun x => -x)) ++ [(0 : ℝ)]
        ++ ((bi.drop 1).reverse).map (fun x => -x)).length = 2 * P := by
    intro bi h; simp [h]; omega
  have hmid : ∀ fw bw : List ℝ → List ℝ,
      (∀ bi : List ℝ, bi.length = P → (fw bi).length = 2 * P) →
      (∀ bi : List ℝ, bi.length = P → (bw bi).length = 2 * P) →
      ∀ l ∈ parts.map fw ++ [List.replicate (2 * P) (0 : ℝ)]
        ++ ((parts.drop 1).reverse).map bw, l.length = 2 * P := by
    intro fw bw hfw hbw l hl
    simp only [List.mem_append, List.mem_singleton] at hl
    rcases hl with (hl | rfl) | hl
    · exact hfwd fw hfw l hl
    · simp
    · exact hbwd bw hbw l hl
  rw [compact_pieces]
  split
  · exact hmid _ _ hshape2 hshape3
  · split
    · exact hmid _ _ hshape1 hshape4
    · split
      · exact hmid _ _ hshape2 hshape2
      · exact hmid _ _ hshape1 hshape1

lemma embedding_first_column_spec (b0 : List ℝ) (Q P : ℕ) (symmetry : String)
    (hQ : 0 < Q) (hP : 0 < P) (hb : b0.length = Q * P)
    (hsym : symmetry ∈ pure_symmetries) :
    embedding_BCCB_first_column b0 Q P symmetry
      = .ok ⟨(compact_pieces (split_blocks b0 Q P) P symmetry).flatten,
          Q, P, symmetry⟩
    ∧ (compact_pieces (split_blocks b0 Q P) P symmetry).flatten.length
        = 4 * Q * P := by
  constructor
  · rw [embedding_BCCB_first_column]
    rw [if_neg (by omega), if_neg (by omega), if_neg (by omega),
      if_neg (by simpa using hsym)]
  · have hp : ∀ l ∈ split_blocks b0 Q P, l.length = P := by
      intro l hl
      simp only [split_blocks, List.mem_map, List.mem_range] at hl
      obtain ⟨i, hi, rfl⟩ := hl
      simp only [List.length_take, List.length_drop, hb]
      have h1 : (i + 1) * P ≤ Q * P := Nat.mul_le_mul_right P hi
      rw [Nat.succ_mul] at h1
      omega
    rw [flatten_length_uniform _ (2 * P)
      (compact_pieces_block_lengths _ _ _ hP hp)]
    rw [compact_pieces_length _ _ _ (by rw [split_blocks_length]; omega)]
    rw [split_blocks_length]
    ring

/-- C10: for every b0 of size nblocks * npoints_per_block and each of the
four accepted pure symmetries, the first column built by
embedding_BCCB_first_column has length exactly
4 * nblocks * npoints_per_block, so the returned BCCB0 satisfies the size
precondition of eigenvalues_BCCB and diagonalization succeeds. -/
theorem C10_embedding_column_feeds_eigenvalues (b0 : List ℝ) (Q P : ℕ)
    (symmetry : String) (hQ : 0 < Q) (hP : 0 < P) (hb : b0.length = Q * P)
    (hsym : symmetry ∈ pure_symmetries) :
    ∃ B, embedding_BCCB_first_column b0 Q P symmetry = .ok B
      ∧ B.first_column.length = 4 * Q * P
      ∧ (eigenvalues_BCCB B "row").isOk = true := by
  obtain ⟨hB, hBlen⟩ := embedding_first_column_spec b0 Q P symmetry hQ hP hb hsym
  refine ⟨_, hB, hBlen, ?_⟩
  rw [eigenvalues_BCCB]
  rw [if_neg (by simp [hQ]), if_neg (by simp [hP]),
    if_neg (by simp only []; rw [hBlen]; ring_nf; omega),
    if_neg (by simpa using pure_mem_nine hsym),
    if_neg (by simp)]
  rfl

/-- C10 witness at a concrete input. -/
theorem C10_embedding_column_feeds_eigenvalues_witness :
    (0 < 1 ∧ 0 < 2 ∧ ([2, 1] : List ℝ).length = 1 * 2
        ∧ "symm-symm" ∈ pure_symmetries)
    ∧ ∃ B, embedding_BCCB_first_column [2, 1] 1 2 "symm-symm" = .ok B
      ∧ B.first_column.length = 4 * 1 * 2
      ∧ (eigenvalues_BCCB B "row").isOk = true := by
  refine ⟨⟨by decide, by decide, by simp, by decide⟩, ?_⟩
  exact C10_embedding_column_feeds_eigenvalues [2, 1] 1 2 "symm-symm"
    (by decide) (by decide) (by simp) (by decide)

/-! ### Claims C2, C3, C4 -/

/-- Unpacking of a successful BTTB metadata validation. -/
lemma BTTB_metadata_ok_spec {ss sb : String} {Q : ℕ}
    {columns : List (List ℝ)} {rows : Option (List (List ℝ))}
    (h : BTTB_metadata_ok ss sb Q columns rows = true) :
    0 < Q ∧ 0 < width columns
    ∧ (∀ c ∈ columns, c.length = width columns)
    ∧ columns.length = (if ss = "gene" then 2 * Q - 1 else Q)
    ∧ (ss = "gene" ∨ ss = "symm" ∨ ss = "skew")
    ∧ (sb = "gene" ∨ sb = "symm" ∨ sb = "skew")
    ∧ (∀ rs, rows = some rs → sb = "gene" ∧ rs.length = columns.length
        ∧ ∀ r ∈ rs, r.length + 1 = width columns)
    ∧ (rows = none → sb ≠ "gene") := by
  cases rows with
  | none =>
    simp only [BTTB_metadata_ok, Bool.and_eq_true, Bool.or_eq_true,
      beq_iff_eq, decide_eq_true_eq, List.all_eq_true,
      Bool.not_eq_true', beq_eq_false_iff_ne] at h
    obtain ⟨⟨⟨⟨⟨htags, hQ⟩, hwidth⟩, hall⟩, hlen⟩, hrows⟩ := h
    exact ⟨hQ, hwidth, hall, hlen, by tauto, by tauto, by simp,
      fun _ => hrows⟩
  | some rs =>
    simp only [BTTB_metadata_ok, Bool.and_eq_true, Bool.or_eq_true,
      beq_iff_eq, decide_eq_true_eq, List.all_eq_true] at h
    obtain ⟨⟨⟨⟨⟨htags, hQ⟩, hwidth⟩, hall⟩, hlen⟩, ⟨hg, hl2⟩, hall2⟩ := h
    refine ⟨hQ, hwidth, hall, hlen, by tauto, by tauto, ?_, by simp⟩
    intro rs2 hrs2
    obtain rfl : rs = rs2 := by injection hrs2
    exact ⟨hg, hl2, hall2⟩

/-- C2: contrary to the claim, BCCB_from_BTTB never returns the embedding
BCCB nor its first column: for every input accepted by the metadata
validation it raises TypeError, because both of its internal calls pass
only one or two positional arguments to Circulant_from_Toeplitz, whose
first three parameters (symmetry, column, row) are required. -/
theorem C2_BCCB_from_BTTB_always_raises (ss sb : String) (Q : ℕ)
    (columns : List (List ℝ)) (rows : Option (List (List ℝ))) (full : Bool)
    (h : BTTB_metadata_ok ss sb Q columns rows = true) :
    BCCB_from_BTTB ss sb Q columns rows full true
      = .error "TypeError: Circulant_from_Toeplitz missing 2 required positional arguments: column and row"
    ∨ BCCB_from_BTTB ss sb Q columns rows full true
      = .error "TypeError: Circulant_from_Toeplitz missing 1 required positional argument: row" := by
  obtain ⟨hQ, hw, hcl, hlen, _, _, hrows_some, _⟩ := BTTB_metadata_ok_spec h
  have hne : columns.length ≠ 0 := by
    rw [hlen]; split <;> omega
  cases rows with
  | none =>
    left
    rw [BCCB_from_BTTB.eq_def]
    rw [if_neg (by simp [h])]
    simp only [if_neg hne]
  | some rs =>
    right
    obtain ⟨-, hlen2, hwidths⟩ := hrows_some rs rfl
    have hwr : width columns = width rs + 1 := by
      cases rs with
      | nil =>
        simp only [List.length_nil] at hlen2
        exact absurd hlen2.symm hne
      | cons r rs2 =>
        have hr := hwidths r (by simp)
        show width columns = r.length + 1
        omega
    rw [BCCB_from_BTTB.eq_def]
    rw [if_neg (by simp [h])]
    simp only [if_neg hne, if_neg (show ¬columns.length ≠ rs.length by omega),
      if_neg (show ¬width columns ≠ width rs + 1 by omega)]

/-- C2 witness at a concrete valid input. -/
theorem C2_BCCB_from_BTTB_always_raises_witness :
    BTTB_metadata_ok "symm" "symm" 1 [[2, 1]] none = true
    ∧ (BCCB_from_BTTB "symm" "symm" 1 [[2, 1]] none true true
        = .error "TypeError: Circulant_from_Toeplitz missing 2 required positional arguments: column and row"
      ∨ BCCB_from_BTTB "symm" "symm" 1 [[2, 1]] none true true
        = .error "TypeError: Circulant_from_Toeplitz missing 1 required positional argument: row") := by
  refine ⟨by decide, ?_⟩
  exact C2_BCCB_from_BTTB_always_raises "symm" "symm" 1 [[2, 1]] none true
    (by decide)

/-- C3: the comparison demanded by the claim cannot hold on the code: at
the concrete input nblocks = 1, npoints_per_block = 2, b0 = [2,1],
symmetry "symm-symm" (generating columns [[2,1]]), the compact path
succeeds and returns the first column [2,1,0,1,0,0,0,0], while
BCCB_from_BTTB with full = False raises TypeError (its internal call to
Circulant_from_Toeplitz omits required arguments), so it produces no first
column at all. -/
theorem C3_compact_path_vs_broken_assembler :
    (∃ B, embedding_BCCB_first_column [2, 1] 1 2 "symm-symm" = .ok B
       ∧ B.first_column = [2, 1, 0, 1, 0, 0, 0, 0])
    ∧ BCCB_from_BTTB "symm" "symm" 1 [[2, 1]] none false true
      = .error "TypeError: Circulant_from_Toeplitz missing 2 required positional arguments: column and row" := by
  constructor
  · refine ⟨⟨[2, 1, 0, 1, 0, 0, 0, 0], 1, 2, "symm-symm"⟩, ?_, rfl⟩
    norm_num [embedding_BCCB_first_column, compact_pieces, split_blocks,
      pure_symmetries, List.range_succ,
      show (("symm-symm" = "skew-skew")) = False by decide,
      show (("symm-symm" = "skew-symm")) = False by decide,
      show (("symm-symm" = "symm-skew")) = False by decide,
      show ((2 : ℕ) * 2) = 4 by decide, List.replicate]
  · rw [BCCB_from_BTTB.eq_def]
    rw [if_neg (by decide)]
    simp only [if_neg (show ¬([[(2 : ℝ), 1]] : List (List ℝ)).length = 0 by simp)]

/-- C4 counterexample: at a well-formed concrete input (a valid
2 x 2 eigenvalue grid for nblocks = npoints_per_block = 1 and v = [1]),
product_BCCB_vector with the validation flag disabled raises NameError
(the source unpacks the eigenvalue dictionary only inside the
"if check_input" block), so it does not return the result it returns with
the flag enabled. -/
theorem C4_counterexample :
    product_BCCB_vector ⟨⟨2, 2, fun _ _ => 1⟩, "row", 1, 1, "symm-symm"⟩
        [1] false
      = .error "NameError: name ordering is not defined"
    ∧ product_BCCB_vector ⟨⟨2, 2, fun _ _ => 1⟩, "row", 1, 1, "symm-symm"⟩
        [1] true
      ≠ product_BCCB_vector ⟨⟨2, 2, fun _ _ => 1⟩, "row", 1, 1, "symm-symm"⟩
        [1] false := by
  have herr : product_BCCB_vector
      ⟨⟨2, 2, fun _ _ => 1⟩, "row", 1, 1, "symm-symm"⟩ [1] false
      = .error "NameError: name ordering is not defined" := by
    rw [product_BCCB_vector, if_neg (by simp)]
  refine ⟨herr, ?_⟩
  have hok : ∃ w, product_BCCB_vector
      ⟨⟨2, 2, fun _ _ => 1⟩, "row", 1, 1, "symm-symm"⟩ [1] true = .ok w := by
    rw [product_BCCB_vector, if_pos rfl, if_neg (by decide),
      if_neg (by decide), if_neg (by decide), if_neg (by decide),
      if_neg (by decide), if_neg (by decide)]
    exact ⟨_, by rw [if_pos rfl]⟩
  obtain ⟨w, hw⟩ := hok
  rw [hw, herr]
  simp

/-- C4 amended: of the public operations, compute, generic_BTTB,
Circulant_from_Toeplitz and BCCB_from_BTTB take the check_input flag and
return identical results with it enabled or disabled on inputs that pass
validation (proved here for the three operations in the modelled core);
embedding_BCCB_first_column and eigenvalues_BCCB expose no flag (their
validation always runs), and product_BCCB_vector takes the flag but raises
NameError whenever it is disabled (see the counterexample). -/
theorem C4_flag_equivalence_amended (ss sb symmetry : String) (Q : ℕ)
    (columns : List (List ℝ)) (rows : Option (List (List ℝ)))
    (column : List ℝ) (row : Option (List ℝ)) (full : Bool)
    (hB : BTTB_metadata_ok ss sb Q columns rows = true)
    (hT : Toeplitz_metadata_ok symmetry column row = true) :
    generic_BTTB ss sb Q columns rows true
      = generic_BTTB ss sb Q columns rows false
    ∧ Circulant_from_Toeplitz symmetry column row full true
      = Circulant_from_Toeplitz symmetry column row full false
    ∧ BCCB_from_BTTB ss sb Q columns rows full true
      = BCCB_from_BTTB ss sb Q columns rows full false := by
  refine ⟨?_, ?_, ?_⟩
  · rw [generic_BTTB, generic_BTTB, if_neg (by simp [hB]),
      if_neg (show ¬(false = true
        ∧ BTTB_metadata_ok ss sb Q columns rows = false) by simp)]
  · rw [Circulant_from_Toeplitz, Circulant_from_Toeplitz,
      if_neg (by simp [hT]),
      if_neg (show ¬(false = true
        ∧ Toeplitz_metadata_ok symmetry column row = false) by simp)]
  · rw [BCCB_from_BTTB.eq_def, BCCB_from_BTTB.eq_def, if_neg (by simp [hB]),
      if_neg (show ¬(false = true
        ∧ BTTB_metadata_ok ss sb Q columns rows = false) by simp)]

/-- C4 witness at a concrete valid input. -/
theorem C4_flag_equivalence_amended_witness :
    (BTTB_metadata_ok "symm" "symm" 1 [[2, 1]] none = true
      ∧ Toeplitz_metadata_ok "symm" [2, 1] none = true)
    ∧ generic_BTTB "symm" "symm" 1 [[2, 1]] none true
      = generic_BTTB "symm" "symm" 1 [[2, 1]] none false := by
  refine ⟨⟨by decide, by decide⟩, ?_⟩
  exact (C4_flag_equivalence_amended "symm" "symm" "symm" 1 [[2, 1]] none
    [2, 1] none true (by decide) (by decide)).1

/-! ### Claim C8 -/

lemma emod_sub_of_le (i j n : ℕ) (hij : j ≤ i) (h : i - j < n) :
    (((i : ℤ) - (j : ℤ)) % ((n : ℕ) : ℤ)).toNat = i - j := by
  have h1 : (i : ℤ) - j = ((i - j : ℕ) : ℤ) := by omega
  rw [h1, Int.emod_eq_of_lt (by positivity) (by exact_mod_cast h)]
  simp

lemma emod_sub_of_gt (i j n : ℕ) (hij : i < j) (h : j - i < n) :
    (((i : ℤ) - (j : ℤ)) % ((n : ℕ) : ℤ)).toNat = n - (j - i) := by
  have h1 : (i : ℤ) - j = ((n - (j - i) : ℕ) : ℤ) + (n : ℤ) * (-1) := by
    omega
  rw [h1, Int.add_mul_emod_self_left,
    Int.emod_eq_of_lt (by positivity) (by omega)]
  simp

lemma Toeplitz_metadata_ok_pure (symmetry : String) (column : List ℝ)
    (h : symmetry = "symm" ∨ symmetry = "skew") (hP : 0 < column.length) :
    Toeplitz_metadata_ok symmetry column none = true := by
  rcases h with rfl | rfl <;> simp [Toeplitz_metadata_ok, hP]

/-- The top-left P x P quadrant of the full embedding circulant coincides
with the dense Toeplitz matrix built from the column and the derived
row. -/
lemma circulant_quadrant (symmetry : String) (column : List ℝ)
    (hsym : symmetry = "symm" ∨ symmetry = "skew") (i j : ℕ)
    (hi : i < column.length) (hj : j < column.length) :
    (Circulant_column symmetry column none).getD
        (((i : ℤ) - (j : ℤ)) % ((2 * column.length : ℕ) : ℤ)).toNat 0
      = (dense_Toeplitz column (derived_row symmetry column none)).entry i j := by
  rcases le_or_lt j i with hij | hij
  · rw [emod_sub_of_le i j (2 * column.length) hij (by omega)]
    have hC : ∀ tail : List ℝ,
        ((column ++ [0]) ++ tail).getD (i - j) 0 = column.getD (i - j) 0 := by
      intro tail
      rw [getD_append_left _ _ _ _ (by simp; omega),
        getD_append_left _ _ _ _ (by omega)]
    have hgoal : (Circulant_column symmetry column none).getD (i - j) 0
        = column.getD (i - j) 0 := by
      rcases hsym with rfl | rfl
      · rw [Circulant_column, if_pos rfl]; exact hC _
      · rw [Circulant_column, if_neg (by decide), if_pos rfl]; exact hC _
    rw [hgoal]
    simp [dense_Toeplitz, hij]
  · have hP2 : 2 ≤ column.length := by omega
    have he1 : 1 ≤ j - i := by omega
    have heP : j - i < column.length := by omega
    rw [emod_sub_of_gt i j (2 * column.length) hij (by omega)]
    have htail : ∀ tail : List ℝ,
        ((column ++ [0]) ++ tail).getD (2 * column.length - (j - i)) 0
          = tail.getD (column.length - (j - i) - 1) 0 := by
      intro tail
      rw [getD_append_right _ _ _ _ (by simp; omega)]
      congr 1
      simp only [List.length_append, List.length_cons, List.length_nil]
      omega
    have hrev : (column.drop 1).reverse.getD (column.length - (j - i) - 1) 0
        = column.getD (j - i) 0 := by
      rw [getD_reverse _ _ _ (by simp; omega), getD_drop]
      congr 1
      simp only [List.length_reverse, List.length_drop]
      omega
    have hdrop : (column.drop 1).getD (j - i - 1) 0 = column.getD (j - i) 0 := by
      rw [getD_drop]
      congr 1
      omega
    rcases hsym with rfl | rfl
    · rw [Circulant_column, if_pos rfl, htail, hrev]
      rw [dense_Toeplitz]
      simp only [if_neg (not_le.mpr hij)]
      rw [derived_row, if_pos rfl, hdrop]
    · rw [Circulant_column, if_neg (by decide), if_pos rfl, htail,
        getD_map_neg, hrev]
      rw [dense_Toeplitz]
      simp only [if_neg (not_le.mpr hij)]
      rw [derived_row, if_neg (by decide), if_pos rfl, getD_map_neg, hdrop]

/-- C8: for every non-empty column and symmetry in (symm, skew),
Circulant_from_Toeplitz with full=True returns the 2P x 2P matrix whose
entry (i, j) is C[(i-j) mod 2P] for the generating column
C = [column, 0, reversed-and-possibly-negated row], whose top-left P x P
quadrant is the dense Toeplitz matrix built from column and the derived
row; and concretely for column = [2,1] with symmetry "symm" the generating
column is [2,1,0,1] and the full circulant has entries (0,0)=2, (1,0)=1,
(3,0)=1, (0,1)=1. -/
theorem C8_circulant_embeds_Toeplitz :
    (∀ (symmetry : String) (column : List ℝ),
      symmetry = "symm" ∨ symmetry = "skew" → 0 < column.length →
      ∃ M, Circulant_from_Toeplitz symmetry column none true true
          = .ok (.inl M)
        ∧ M.rows = 2 * column.length ∧ M.cols = 2 * column.length
        ∧ (∀ i j : ℕ, M.entry i j
            = (Circulant_column symmetry column none).getD
                (((i : ℤ) - (j : ℤ)) % ((2 * column.length : ℕ) : ℤ)).toNat 0)
        ∧ (∀ i j : ℕ, i < column.length → j < column.length →
            M.entry i j
              = (dense_Toeplitz column
                  (derived_row symmetry column none)).entry i j))
    ∧ Circulant_column "symm" [2, 1] none = [2, 1, 0, 1]
    ∧ (∃ M, Circulant_from_Toeplitz "symm" [2, 1] none true true
          = .ok (.inl M)
        ∧ M.entry 0 0 = 2 ∧ M.entry 1 0 = 1 ∧ M.entry 3 0 = 1
        ∧ M.entry 0 1 = 1) := by
  have hmain : ∀ (symmetry : String) (column : List ℝ),
      symmetry = "symm" ∨ symmetry = "skew" → 0 < column.length →
      ∃ M, Circulant_from_Toeplitz symmetry column none true true
          = .ok (.inl M)
        ∧ M.rows = 2 * column.length ∧ M.cols = 2 * column.length
        ∧ (∀ i j : ℕ, M.entry i j
            = (Circulant_column symmetry column none).getD
                (((i : ℤ) - (j : ℤ)) % ((2 * column.length : ℕ) : ℤ)).toNat 0)
        ∧ (∀ i j : ℕ, i < column.length → j < column.length →
            M.entry i j
              = (dense_Toeplitz column
                  (derived_row symmetry column none)).entry i j) := by
    intro symmetry column hsym hP
    refine ⟨⟨2 * column.length, 2 * column.length, fun i j =>
        (Circulant_column symmetry column none).getD
          (((i : ℤ) - (j : ℤ)) % ((2 * column.length : ℕ) : ℤ)).toNat 0⟩,
      ?_, rfl, rfl, fun i j => rfl, ?_⟩
    · rw [Circulant_from_Toeplitz,
        if_neg (by simp [Toeplitz_metadata_ok_pure symmetry column hsym hP]),
        if_pos rfl]
    · intro i j hi hj
      exact circulant_quadrant symmetry column hsym i j hi hj
  refine ⟨hmain, ?_, ?_⟩
  · norm_num [Circulant_column]
  · obtain ⟨M, hM, -, -, hentry, -⟩ :=
      hmain "symm" [2, 1] (Or.inl rfl) (by norm_num)
    refine ⟨M, hM, ?_, ?_, ?_, ?_⟩ <;>
      · rw [hentry]
        norm_num [Circulant_column, show Int.toNat 3 = 3 from rfl,
          show Int.toNat 1 = 1 from rfl, show Int.toNat 0 = 0 from rfl]

/-- C8 witness at the concrete scenario input. -/
theorem C8_circulant_embeds_Toeplitz_witness :
    (("symm" = "symm" ∨ "symm" = "skew") ∧ 0 < ([2, 1] : List ℝ).length)
    ∧ ∃ M, Circulant_from_Toeplitz "symm" [2, 1] none true true
        = .ok (.inl M)
      ∧ M.rows = 2 * ([2, 1] : List ℝ).length := by
  refine ⟨⟨Or.inl rfl, by norm_num⟩, ?_⟩
  obtain ⟨M, hM, hr, -⟩ :=
    C8_circulant_embeds_Toeplitz.1 "symm" [2, 1] (Or.inl rfl) (by norm_num)
  exact ⟨M, hM, hr⟩

/-! ### Claim C5: dense symmetry sign laws -/

lemma getD_mem (l : List ℝ) (n : ℕ) (h : n < l.length) : l.getD n 0 ∈ l := by
  rw [List.getD_eq_getElem?_getD, l.getElem?_eq_getElem h]
  exact List.getElem_mem h

lemma getD_mem_list (l : List (List ℝ)) (n : ℕ) (h : n < l.length) :
    l.getD n [] ∈ l := by
  rw [List.getD_eq_getElem?_getD, l.getElem?_eq_getElem h]
  exact List.getElem_mem h

lemma width_eq (columns : List (List ℝ)) (P : ℕ) (h0 : 0 < columns.length)
    (hall : ∀ c ∈ columns, c.length = P) : width columns = P := by
  cases columns with
  | nil => simp at h0
  | cons c cs => exact hall c (by simp)

lemma BTTB_metadata_ok_of_pure (ss sb : String) (Q P : ℕ)
    (columns : List (List ℝ)) (hss : ss = "symm" ∨ ss = "skew")
    (hsb : sb = "symm" ∨ sb = "skew") (hQ : 0 < Q) (hP : 0 < P)
    (hlen : columns.length = Q) (hall : ∀ c ∈ columns, c.length = P) :
    BTTB_metadata_ok ss sb Q columns none = true := by
  have hw : width columns = P := width_eq columns P (by omega) hall
  rcases hss with rfl | rfl <;> rcases hsb with rfl | rfl
  all_goals simp [BTTB_metadata_ok, hQ, hw, hP, hlen]
  all_goals exact hall

lemma generic_BTTB_ok {ss sb : String} {Q : ℕ} {columns : List (List ℝ)}
    {rows : Option (List (List ℝ))}
    (h : BTTB_metadata_ok ss sb Q columns rows = true) :
    generic_BTTB ss sb Q columns rows true
      = .ok ⟨Q * width columns, Q * width columns, fun a b =>
          ((concatenated_blocks ss sb Q columns rows).getD
              (a / width columns + (Q - 1 - b / width columns)) []).getD
            (a % width columns + (width columns - 1 - b % width columns)) 0⟩ := by
  rw [generic_BTTB, if_neg (by simp [h])]

lemma concatenated_blocks_pure (ss sb : String) (Q : ℕ)
    (columns : List (List ℝ)) (hss : ss = "symm" ∨ ss = "skew") :
    concatenated_blocks ss sb Q columns none
      = (if ss = "skew"
          then (((List.zipWith (toeplitz_gen sb) columns
              (dummy_rows columns)).drop 1).reverse).map
            (fun b => b.map (fun x => -x))
          else ((List.zipWith (toeplitz_gen sb) columns
              (dummy_rows columns)).drop 1).reverse)
        ++ List.zipWith (toeplitz_gen sb) columns (dummy_rows columns) := by
  rw [concatenated_blocks, if_pos hss]

lemma blocks_getD (sb : String) (columns : List (List ℝ)) (q : ℕ)
    (hq : q < columns.length) :
    (List.zipWith (toeplitz_gen sb) columns (dummy_rows columns)).getD q []
      = toeplitz_gen sb (columns.getD q []) [] := by
  rw [List.getD_eq_getElem?_getD, List.getElem?_zipWith,
    columns.getElem?_eq_getElem hq]
  rw [show (dummy_rows columns)[q]? = some [] by
    rw [dummy_rows, List.getElem?_map, columns.getElem?_eq_getElem hq]
    rfl]
  rw [List.getD_eq_getElem?_getD, columns.getElem?_eq_getElem hq]
  rfl

/-- Selecting a block of the concatenated generator list for the pure
structure symmetries: position i1 + (Q-1 - j1) holds the generator of the
block at distance between i1 and j1, negated when the structure is
skew-symmetric and the position lies above the block diagonal. -/
lemma cb_getD_pure (ss sb : String) (Q : ℕ) (columns : List (List ℝ))
    (hss : ss = "symm" ∨ ss = "skew") (hlen : columns.length = Q)
    (i1 j1 : ℕ) (hi1 : i1 < Q) (hj1 : j1 < Q) :
    (concatenated_blocks ss sb Q columns none).getD (i1 + (Q - 1 - j1)) []
      = if i1 < j1 ∧ ss = "skew"
        then ((List.zipWith (toeplitz_gen sb) columns
            (dummy_rows columns)).getD (j1 - i1) []).map (fun x => -x)
        else (List.zipWith (toeplitz_gen sb) columns
            (dummy_rows columns)).getD
          (if j1 ≤ i1 then i1 - j1 else j1 - i1) [] := by
  have hblen : (List.zipWith (toeplitz_gen sb) columns
      (dummy_rows columns)).length = Q := by
    simp [dummy_rows, hlen]
  rw [concatenated_blocks_pure ss sb Q columns hss]
  set blocks := List.zipWith (toeplitz_gen sb) columns (dummy_rows columns)
    with hblocks
  set mir := if ss = "skew"
      then ((blocks.drop 1).reverse).map (fun b => b.map (fun x => -x))
      else (blocks.drop 1).reverse with hmir
  have hmirlen : mir.length = Q - 1 := by
    rw [hmir]
    split <;> simp only [List.length_map, List.length_reverse,
      List.length_drop, hblen]
  rcases le_or_lt j1 i1 with hij | hij
  · rw [getD_append_right mir blocks _ [] (by rw [hmirlen]; omega)]
    rw [hmirlen]
    rw [if_neg (fun hc => absurd hc.1 (by omega)), if_pos hij]
    congr 1
    omega
  · rw [getD_append_left mir blocks _ [] (by rw [hmirlen]; omega)]
    have hidx : i1 + (Q - 1 - j1) = Q - 1 - (j1 - i1) := by omega
    have hrev : ((blocks.drop 1).reverse).getD (Q - 1 - (j1 - i1)) []
        = blocks.getD (j1 - i1) [] := by
      rw [getD_reverse _ _ _ (by simp only [List.length_reverse,
        List.length_drop, hblen]; omega), getD_drop]
      congr 1
      simp only [List.length_reverse, List.length_drop, hblen]
      omega
    rcases hss with rfl | rfl
    · rw [if_neg (by decide)] at hmir
      rw [hmir, if_neg (by simp), if_neg (by omega), hidx, hrev]
    · rw [if_pos rfl] at hmir
      rw [hmir, if_pos (show i1 < j1 ∧ ("skew" : String) = "skew"
        from ⟨hij, rfl⟩), hidx]
      have hmap : (((blocks.drop 1).reverse).map
          (fun b => b.map (fun x => -x))).getD (Q - 1 - (j1 - i1)) []
          = (((blocks.drop 1).reverse).getD (Q - 1 - (j1 - i1)) []).map
              (fun x => -x) := by
        apply getD_map_list
        simp only [List.length_reverse, List.length_drop, hblen]
        omega
      rw [hmap, hrev]

/-- Selecting an element of a pure-symmetry block generator: position
i2 + (P-1 - j2) holds the column element at distance between i2 and j2,
negated when the block is skew-symmetric and the position lies above the
diagonal. -/
lemma toeplitz_gen_getD_pure (sb : String) (column : List ℝ) (P : ℕ)
    (hsb : sb = "symm" ∨ sb = "skew") (hcol : column.length = P)
    (i2 j2 : ℕ) (hi2 : i2 < P) (hj2 : j2 < P) :
    (toeplitz_gen sb column []).getD (i2 + (P - 1 - j2)) 0
      = (if i2 < j2 ∧ sb = "skew" then (-1 : ℝ) else 1) *
          column.getD (if j2 ≤ i2 then i2 - j2 else j2 - i2) 0 := by
  have hrlen : (column.drop 1).reverse.length = P - 1 := by simp [hcol]
  rcases le_or_lt j2 i2 with hij | hij
  · rw [if_neg (fun hc => absurd hc.1 (by omega)), if_pos hij, one_mul]
    rcases hsb with rfl | rfl
    · rw [toeplitz_gen, if_pos rfl,
        getD_append_right ((column.drop 1).reverse) column _ 0
          (by rw [hrlen]; omega)]
      rw [hrlen]
      congr 1
      omega
    · rw [toeplitz_gen, if_neg (by decide), if_pos rfl,
        getD_append_right (((column.drop 1).reverse).map (fun x => -x))
          column _ 0 (by simp only [List.length_map, hrlen]; omega)]
      simp only [List.length_map, hrlen]
      congr 1
      omega
  · have hrev : (column.drop 1).reverse.getD (i2 + (P - 1 - j2)) 0
        = column.getD (j2 - i2) 0 := by
      have hidx : i2 + (P - 1 - j2) = P - 1 - (j2 - i2) := by omega
      have hb2 : P - 1 - (j2 - i2) < (List.drop 1 column).length := by
        simp only [List.length_drop, hcol]
        omega
      rw [hidx, getD_reverse _ _ _ hb2, getD_drop]
      congr 1
      simp only [List.length_drop, hcol]
      omega
    rcases hsb with rfl | rfl
    · rw [if_neg (show ¬(i2 < j2 ∧ ("symm" : String) = "skew") by simp),
        one_mul, if_neg (show ¬ j2 ≤ i2 by omega)]
      rw [toeplitz_gen, if_pos rfl,
        getD_append_left ((column.drop 1).reverse) column _ 0
          (by rw [hrlen]; omega), hrev]
    · rw [if_pos (show i2 < j2 ∧ ("skew" : String) = "skew" from ⟨hij, rfl⟩),
        if_neg (show ¬ j2 ≤ i2 by omega)]
      rw [toeplitz_gen, if_neg (by decide), if_pos rfl,
        getD_append_left (((column.drop 1).reverse).map (fun x => -x))
          column _ 0 (by simp only [List.length_map, hrlen]; omega),
        getD_map_neg, hrev]
      ring

/-- The dense entry formula for the four pure symmetry patterns: the entry
of generic_BTTB at block offsets (i1, j1) and in-block offsets (i2, j2) is
the generating column element at the two distances, with a structure sign
and a block sign. -/
lemma pure_T_entry (ss sb : String) (Q P : ℕ) (columns : List (List ℝ))
    (hss : ss = "symm" ∨ ss = "skew") (hsb : sb = "symm" ∨ sb = "skew")
    (hlen : columns.length = Q) (hall : ∀ c ∈ columns, c.length = P)
    (i1 j1 i2 j2 : ℕ) (hi1 : i1 < Q) (hj1 : j1 < Q) (hi2 : i2 < P)
    (hj2 : j2 < P) :
    ((concatenated_blocks ss sb Q columns none).getD (i1 + (Q - 1 - j1)) []).getD
        (i2 + (P - 1 - j2)) 0
      = (if i1 < j1 ∧ ss = "skew" then (-1 : ℝ) else 1)
        * (if i2 < j2 ∧ sb = "skew" then (-1 : ℝ) else 1)
        * (columns.getD (if j1 ≤ i1 then i1 - j1 else j1 - i1) []).getD
            (if j2 ≤ i2 then i2 - j2 else j2 - i2) 0 := by
  have hd1 : (if j1 ≤ i1 then i1 - j1 else j1 - i1) < Q := by
    split <;> omega
  have hcd : (columns.getD (if j1 ≤ i1 then i1 - j1 else j1 - i1) []).length
      = P := hall _ (getD_mem_list columns _ (by omega))
  rw [cb_getD_pure ss sb Q columns hss hlen i1 j1 hi1 hj1]
  split
  · next hskew =>
    have hdist : (if j1 ≤ i1 then i1 - j1 else j1 - i1) = j1 - i1 :=
      if_neg (by omega)
    rw [hdist] at hcd
    rw [hdist]
    rw [getD_map_neg, blocks_getD sb columns _ (by omega),
      toeplitz_gen_getD_pure sb _ P hsb hcd i2 j2 hi2 hj2]
    ring
  · rw [blocks_getD sb columns _ (by omega),
      toeplitz_gen_getD_pure sb _ P hsb hcd i2 j2 hi2 hj2]
    ring

lemma dist_if_comm (x y : ℕ) :
    (if y ≤ x then x - y else y - x) = (if x ≤ y then y - x else x - y) := by
  rcases Nat.lt_trichotomy x y with h | h | h
  · rw [if_neg (by omega), if_pos (by omega)]
  · subst h
    simp
  · rw [if_pos (by omega), if_neg (by omega)]

/-- The dense entry of generic_BTTB for pure symmetries, in terms of the
block and in-block index distances, a structure sign and a block sign. -/
lemma pure_T_entry_dense (ss sb : String) (Q P : ℕ)
    (columns : List (List ℝ)) (hss : ss = "symm" ∨ ss = "skew")
    (hsb : sb = "symm" ∨ sb = "skew") (hQ : 0 < Q) (hP : 0 < P)
    (hlen : columns.length = Q) (hall : ∀ c ∈ columns, c.length = P)
    (T : Grid ℝ) (hT : generic_BTTB ss sb Q columns none true = .ok T)
    (a b : ℕ) (ha : a < Q * P) (hb : b < Q * P) :
    T.entry a b
      = (if a / P < b / P ∧ ss = "skew" then (-1 : ℝ) else 1)
        * (if a % P < b % P ∧ sb = "skew" then (-1 : ℝ) else 1)
        * (columns.getD
            (if b / P ≤ a / P then a / P - b / P else b / P - a / P) []).getD
          (if b % P ≤ a % P then a % P - b % P else b % P - a % P) 0 := by
  have hw : width columns = P := width_eq columns P (by omega) hall
  have hok := generic_BTTB_ok
    (BTTB_metadata_ok_of_pure ss sb Q P columns hss hsb hQ hP hlen hall)
  rw [hok] at hT
  injection hT with hTeq
  rw [← hTeq]
  show ((concatenated_blocks ss sb Q columns none).getD
      (a / width columns + (Q - 1 - b / width columns)) []).getD
    (a % width columns + (width columns - 1 - b % width columns)) 0 = _
  rw [hw]
  have hdiv1 : a / P < Q := by
    rw [Nat.div_lt_iff_lt_mul hP]
    omega
  have hdiv2 : b / P < Q := by
    rw [Nat.div_lt_iff_lt_mul hP]
    omega
  exact pure_T_entry ss sb Q P columns hss hsb hlen hall
    (a / P) (b / P) (a % P) (b % P) hdiv1 hdiv2
    (Nat.mod_lt a hP) (Nat.mod_lt b hP)

/-- C5 counterexample: for the valid columns table [[1]] (one 1 x 1 block),
the skew-skew BTTB is T = [[1]], and T does not equal minus its
transpose. -/
theorem C5_counterexample :
    ∃ T, generic_BTTB "skew" "skew" 1 [[1]] none true = .ok T
      ∧ T.entry 0 0 = 1 ∧ ¬ T.entry 0 0 = -T.entry 0 0 := by
  refine ⟨_, generic_BTTB_ok (by decide), ?_, ?_⟩
  · norm_num [concatenated_blocks, toeplitz_gen, dummy_rows, width,
      show (("skew" = "symm")) = False by decide,
      show (¬("skew" = "symm")) = True by decide]
  · norm_num [concatenated_blocks, toeplitz_gen, dummy_rows, width,
      show (("skew" = "symm")) = False by decide,
      show (¬("skew" = "symm")) = True by decide]

/-- C5 amended: for every valid columns table, the symm-symm BTTB is
symmetric, T = T transposed; the skew-skew BTTB does not satisfy
T = -T transposed (see the counterexample) — instead it also satisfies
T = T transposed provided the entries where the two reflection rules
degenerate vanish: the diagonal-block generating column beyond its first
entry, and the first entry of every off-diagonal generating column (this
holds automatically for kernels that are genuinely odd in both grid
directions). -/
theorem C5_symmetry_sign_laws (Q P : ℕ) (columns : List (List ℝ))
    (hQ : 0 < Q) (hP : 0 < P) (hlen : columns.length = Q)
    (hall : ∀ c ∈ columns, c.length = P) :
    (∀ T, generic_BTTB "symm" "symm" Q columns none true = .ok T →
      ∀ a b, a < Q * P → b < Q * P → T.entry a b = T.entry b a)
    ∧ ((∀ s, 0 < s → s < P → (columns.getD 0 []).getD s 0 = 0) →
       (∀ m, 0 < m → m < Q → (columns.getD m []).getD 0 0 = 0) →
       ∀ T, generic_BTTB "skew" "skew" Q columns none true = .ok T →
       ∀ a b, a < Q * P → b < Q * P → T.entry a b = T.entry b a) := by
  constructor
  · intro T hT a b ha hb
    rw [pure_T_entry_dense "symm" "symm" Q P columns (Or.inl rfl) (Or.inl rfl)
        hQ hP hlen hall T hT a b ha hb,
      pure_T_entry_dense "symm" "symm" Q P columns (Or.inl rfl) (Or.inl rfl)
        hQ hP hlen hall T hT b a hb ha]
    rw [if_neg (show ¬(a / P < b / P ∧ ("symm" : String) = "skew") by simp),
      if_neg (show ¬(a % P < b % P ∧ ("symm" : String) = "skew") by simp),
      if_neg (show ¬(b / P < a / P ∧ ("symm" : String) = "skew") by simp),
      if_neg (show ¬(b % P < a % P ∧ ("symm" : String) = "skew") by simp)]
    rw [dist_if_comm (a / P) (b / P), dist_if_comm (a % P) (b % P)]
  · intro hz1 hz2 T hT a b ha hb
    have hma : a % P < P := Nat.mod_lt a hP
    have hmb : b % P < P := Nat.mod_lt b hP
    have hda : a / P < Q := by
      rw [Nat.div_lt_iff_lt_mul hP]
      omega
    have hdb : b / P < Q := by
      rw [Nat.div_lt_iff_lt_mul hP]
      omega
    rw [pure_T_entry_dense "skew" "skew" Q P columns (Or.inr rfl) (Or.inr rfl)
        hQ hP hlen hall T hT a b ha hb,
      pure_T_entry_dense "skew" "skew" Q P columns (Or.inr rfl) (Or.inr rfl)
        hQ hP hlen hall T hT b a hb ha]
    simp only [show (("skew" : String) = "skew") = True by simp, and_true]
    rw [dist_if_comm (a / P) (b / P), dist_if_comm (a % P) (b % P)]
    set cval := (columns.getD
        (if a / P ≤ b / P then b / P - a / P else a / P - b / P) []).getD
      (if a % P ≤ b % P then b % P - a % P else a % P - b % P) 0 with hcval
    have hz_row : a / P = b / P → a % P ≠ b % P → cval = 0 := by
      intro h1 h2
      rw [hcval, if_pos (le_of_eq h1),
        show b / P - a / P = 0 from by rw [h1]; exact Nat.sub_self _]
      refine hz1 _ ?_ ?_
      · rcases le_or_lt (a % P) (b % P) with hle | hlt
        · rw [if_pos hle]
          exact Nat.sub_pos_of_lt (lt_of_le_of_ne hle h2)
        · rw [if_neg (show ¬ a % P ≤ b % P by omega)]
          exact Nat.sub_pos_of_lt hlt
      · rcases le_or_lt (a % P) (b % P) with hle | hlt
        · rw [if_pos hle]
          exact lt_of_le_of_lt (Nat.sub_le _ _) hmb
        · rw [if_neg (show ¬ a % P ≤ b % P by omega)]
          exact lt_of_le_of_lt (Nat.sub_le _ _) hma
    have hz_col : a % P = b % P → a / P ≠ b / P → cval = 0 := by
      intro h2 h1
      rw [hcval, show (if a % P ≤ b % P then b % P - a % P else a % P - b % P)
          = 0 from by rw [h2]; simp]
      refine hz2 _ ?_ ?_
      · rcases le_or_lt (a / P) (b / P) with hle | hlt
        · rw [if_pos hle]
          exact Nat.sub_pos_of_lt (lt_of_le_of_ne hle h1)
        · rw [if_neg (show ¬ a / P ≤ b / P by omega)]
          exact Nat.sub_pos_of_lt hlt
      · rcases le_or_lt (a / P) (b / P) with hle | hlt
        · rw [if_pos hle]
          exact lt_of_le_of_lt (Nat.sub_le _ _) hdb
        · rw [if_neg (show ¬ a / P ≤ b / P by omega)]
          exact lt_of_le_of_lt (Nat.sub_le _ _) hda
    rcases Nat.lt_trichotomy (a / P) (b / P) with h1 | h1 | h1
    · rcases Nat.lt_trichotomy (a % P) (b % P) with h2 | h2 | h2
      · rw [if_pos h1, if_pos h2, if_neg (show ¬ b / P < a / P by omega),
          if_neg (show ¬ b % P < a % P by omega)]
        ring
      · rw [hz_col h2 (by omega)]
        ring
      · rw [if_pos h1, if_neg (show ¬ a % P < b % P by omega),
          if_neg (show ¬ b / P < a / P by omega), if_pos h2]
        ring
    · rcases Nat.lt_trichotomy (a % P) (b % P) with h2 | h2 | h2
      · rw [hz_row h1 (by omega)]
        ring
      · rw [h1, h2]
      · rw [hz_row h1 (by omega)]
        ring
    · rcases Nat.lt_trichotomy (a % P) (b % P) with h2 | h2 | h2
      · rw [if_neg (show ¬ a / P < b / P by omega), if_pos h2,
          if_pos h1, if_neg (show ¬ b % P < a % P by omega)]
        ring
      · rw [hz_col h2 (by omega)]
        ring
      · rw [if_neg (show ¬ a / P < b / P by omega),
          if_neg (show ¬ a % P < b % P by omega), if_pos h1, if_pos h2]
        ring

/-- C5 witness at a concrete valid columns table. -/
theorem C5_symmetry_sign_laws_witness :
    (0 < 1 ∧ 0 < 2 ∧ ([[2, 1]] : List (List ℝ)).length = 1
      ∧ ∀ c ∈ ([[2, 1]] : List (List ℝ)), c.length = 2)
    ∧ (∀ T, generic_BTTB "symm" "symm" 1 [[2, 1]] none true = .ok T →
        ∀ a b, a < 1 * 2 → b < 1 * 2 → T.entry a b = T.entry b a) := by
  refine ⟨⟨by decide, by decide, by simp, by simp⟩, ?_⟩
  exact (C5_symmetry_sign_laws 1 2 [[2, 1]] (by decide) (by decide)
    (by simp) (by simp)).1

/-! ### Discrete Fourier kernel facts -/

lemma wexp_add (n : ℕ) (a b : ℤ) : wexp n (a + b) = wexp n a * wexp n b := by
  rw [wexp, wexp, wexp, ← Complex.exp_add]
  congr 1
  push_cast
  ring

lemma wexp_nat_pow (n : ℕ) (z : ℤ) (k : ℕ) :
    wexp n z ^ k = wexp n ((k : ℤ) * z) := by
  rw [wexp, wexp, ← Complex.exp_nat_mul]
  congr 1
  push_cast
  ring

lemma wexp_eq_one_iff (n : ℕ) (hn : 0 < n) (z : ℤ) :
    wexp n z = 1 ↔ (n : ℤ) ∣ z := by
  have hnne : (n : ℂ) ≠ 0 := Nat.cast_ne_zero.mpr hn.ne'
  have hpi : (2 * (Real.pi : ℂ) * Complex.I) ≠ 0 := by
    simp [Complex.ofReal_ne_zero, Real.pi_ne_zero, Complex.I_ne_zero]
  rw [wexp, Complex.exp_eq_one_iff]
  constructor
  · rintro ⟨m, hm⟩
    have h3 := congrArg (fun w => w * (n : ℂ)) hm
    simp only at h3
    rw [div_mul_cancel₀ _ hnne] at h3
    have hz : (2 * (Real.pi : ℂ) * Complex.I) * (z : ℂ)
        = (2 * (Real.pi : ℂ) * Complex.I) * ((-(m * n) : ℤ) : ℂ) := by
      push_cast
      linear_combination (-1 : ℂ) * h3
    have hz2 : (z : ℂ) = ((-(m * n) : ℤ) : ℂ) := mul_left_cancel₀ hpi hz
    have hz3 : z = -(m * n) := by exact_mod_cast hz2
    exact ⟨-m, by rw [hz3]; ring⟩
  · rintro ⟨m, rfl⟩
    refine ⟨-m, ?_⟩
    push_cast
    field_simp
    ring

lemma sum_wexp (n : ℕ) (hn : 0 < n) (z : ℤ) :
    ∑ k in Finset.range n, wexp n ((k : ℤ) * z)
      = if (n : ℤ) ∣ z then (n : ℂ) else 0 := by
  have hsum : ∑ k in Finset.range n, wexp n ((k : ℤ) * z)
      = ∑ k in Finset.range n, (wexp n z) ^ k :=
    Finset.sum_congr rfl fun k _ => (wexp_nat_pow n z k).symm
  by_cases hdvd : (n : ℤ) ∣ z
  · rw [if_pos hdvd, hsum, (wexp_eq_one_iff n hn z).mpr hdvd]
    simp
  · rw [if_neg hdvd, hsum]
    have hne : wexp n z ≠ 1 := fun h => hdvd ((wexp_eq_one_iff n hn z).mp h)
    have hpow : wexp n z ^ n = 1 := by
      rw [wexp_nat_pow]
      exact (wexp_eq_one_iff n hn _).mpr ⟨z, by ring⟩
    rw [geom_sum_eq hne n, hpow]
    simp

lemma dvd_iff_eq_emod (n : ℕ) (hn : 0 < n) (a : ℕ) (ha : a < n) (x : ℤ) :
    (n : ℤ) ∣ ((a : ℤ) - x) ↔ a = (x % (n : ℤ)).toNat := by
  have hnz : (n : ℤ) ≠ 0 := by exact_mod_cast hn.ne'
  constructor
  · intro hdvd
    have h1 : (a : ℤ) % n = x % n := by
      rw [Int.emod_eq_emod_iff_emod_sub_eq_zero]
      exact Int.emod_eq_zero_of_dvd hdvd
    have h2 : (a : ℤ) % n = a := Int.emod_eq_of_lt (by positivity)
      (by exact_mod_cast ha)
    have h3 : (a : ℤ) = x % n := by rw [← h2, h1]
    have h4 : ((a : ℤ)).toNat = (x % n).toNat := by rw [h3]
    simpa using h4
  · intro heq
    have h1 : (a : ℤ) = x % n := by
      rw [heq, Int.toNat_of_nonneg (Int.emod_nonneg x hnz)]
    refine ⟨-(x / n), ?_⟩
    rw [h1, Int.emod_def]
    ring

/-- One-dimensional circular convolution theorem for the unnormalized DFT:
summing the product of two transforms against the inverse kernel yields n
times the circular convolution. -/
lemma dft_conv1 (n : ℕ) (hn : 0 < n) (f g : ℕ → ℂ) (i : ℕ) (hi : i < n) :
    ∑ k in Finset.range n,
        (∑ a in Finset.range n, f a * wexp n ((a : ℤ) * k))
          * (∑ b in Finset.range n, g b * wexp n ((b : ℤ) * k))
          * wexp n (-((i : ℤ) * k))
      = (n : ℂ) * ∑ b in Finset.range n,
          f ((((i : ℤ) - b) % (n : ℤ)).toNat) * g b := by
  have hterm : ∀ k : ℕ,
      (∑ a in Finset.range n, f a * wexp n ((a : ℤ) * k))
        * (∑ b in Finset.range n, g b * wexp n ((b : ℤ) * k))
        * wexp n (-((i : ℤ) * k))
      = ∑ a in Finset.range n, ∑ b in Finset.range n,
          f a * g b * wexp n ((k : ℤ) * ((a : ℤ) + b - i)) := by
    intro k
    rw [Finset.sum_mul_sum, Finset.sum_mul]
    refine Finset.sum_congr rfl fun a _ => ?_
    rw [Finset.sum_mul]
    refine Finset.sum_congr rfl fun b _ => ?_
    rw [show (k : ℤ) * ((a : ℤ) + b - i)
        = (a : ℤ) * k + ((b : ℤ) * k + -((i : ℤ) * k)) by ring]
    rw [wexp_add, wexp_add]
    ring
  rw [Finset.sum_congr rfl fun k _ => hterm k]
  rw [Finset.sum_comm]
  rw [Finset.sum_congr rfl fun a _ => Finset.sum_comm]
  rw [Finset.sum_comm]
  rw [show ∑ b in Finset.range n, ∑ a in Finset.range n,
        ∑ k in Finset.range n, f a * g b * wexp n ((k : ℤ) * ((a : ℤ) + b - i))
      = ∑ b in Finset.range n, ∑ a in Finset.range n,
        f a * g b * (if (n : ℤ) ∣ ((a : ℤ) + b - i) then (n : ℂ) else 0)
      from Finset.sum_congr rfl fun b _ => Finset.sum_congr rfl fun a _ => by
        rw [← Finset.mul_sum, sum_wexp n hn]]
  rw [Finset.mul_sum]
  refine Finset.sum_congr rfl fun b hb => ?_
  have hb2 : b < n := Finset.mem_range.mp hb
  have ha0lt : ((((i : ℤ) - b) % (n : ℤ)).toNat) < n := by
    rw [Int.toNat_lt (Int.emod_nonneg _ (by exact_mod_cast hn.ne'))]
    exact Int.emod_lt_of_pos _ (by exact_mod_cast hn)
  rw [Finset.sum_eq_single ((((i : ℤ) - b) % (n : ℤ)).toNat)]
  · rw [if_pos]
    · ring
    · have := (dvd_iff_eq_emod n hn ((((i : ℤ) - b) % (n : ℤ)).toNat)
        ha0lt ((i : ℤ) - b)).mpr rfl
      have harith : ((((((i : ℤ) - b) % (n : ℤ)).toNat : ℕ) : ℤ) + b - i)
          = -(((((i : ℤ) - b) % (n : ℤ)).toNat : ℤ) - ((i : ℤ) - b)) * (-1) := by
        ring
      rw [show ((((((i : ℤ) - b) % (n : ℤ)).toNat : ℕ) : ℤ) + b - i)
          = ((((((i : ℤ) - b) % (n : ℤ)).toNat : ℤ) - ((i : ℤ) - b))) by ring]
      exact this
  · intro a ha hane
    rw [if_neg, mul_zero]
    intro hdvd
    have hdvd2 : (n : ℤ) ∣ ((a : ℤ) - ((i : ℤ) - b)) := by
      have : ((a : ℤ) - ((i : ℤ) - b)) = ((a : ℤ) + b - i) := by ring
      rw [this]
      exact hdvd
    exact hane ((dvd_iff_eq_emod n hn a (Finset.mem_range.mp ha)
      ((i : ℤ) - b)).mp hdvd2)
  · intro hnotin
    exact absurd (Finset.mem_range.mpr ha0lt) hnotin

/-- Two-dimensional circular convolution theorem for the unnormalized DFT,
obtained by applying the one-dimensional theorem along each axis. -/
lemma dft_conv2 (M N : ℕ) (hM : 0 < M) (hN : 0 < N) (G V : ℕ → ℕ → ℂ)
    (i1 i2 : ℕ) (hi1 : i1 < M) (hi2 : i2 < N) :
    ∑ k1 in Finset.range M, ∑ k2 in Finset.range N,
        (∑ a1 in Finset.range M, ∑ a2 in Finset.range N,
            G a1 a2 * wexp M ((a1 : ℤ) * k1) * wexp N ((a2 : ℤ) * k2))
          * (∑ b1 in Finset.range M, ∑ b2 in Finset.range N,
              V b1 b2 * wexp M ((b1 : ℤ) * k1) * wexp N ((b2 : ℤ) * k2))
          * wexp M (-((i1 : ℤ) * k1)) * wexp N (-((i2 : ℤ) * k2))
      = ((M : ℂ) * N) * ∑ b1 in Finset.range M, ∑ b2 in Finset.range N,
          G ((((i1 : ℤ) - b1) % (M : ℤ)).toNat)
            ((((i2 : ℤ) - b2) % (N : ℤ)).toNat) * V b1 b2 := by
  have hinner : ∀ k1 : ℕ,
      ∑ k2 in Finset.range N,
        (∑ a1 in Finset.range M, ∑ a2 in Finset.range N,
            G a1 a2 * wexp M ((a1 : ℤ) * k1) * wexp N ((a2 : ℤ) * k2))
          * (∑ b1 in Finset.range M, ∑ b2 in Finset.range N,
              V b1 b2 * wexp M ((b1 : ℤ) * k1) * wexp N ((b2 : ℤ) * k2))
          * wexp M (-((i1 : ℤ) * k1)) * wexp N (-((i2 : ℤ) * k2))
      = ((∑ b2 in Finset.range N,
            (∑ a1 in Finset.range M,
              G a1 ((((i2 : ℤ) - b2) % (N : ℤ)).toNat)
                * wexp M ((a1 : ℤ) * k1))
            * (∑ b1 in Finset.range M, V b1 b2 * wexp M ((b1 : ℤ) * k1)))
          * wexp M (-((i1 : ℤ) * k1))) * N := by
    intro k1
    have hG : ∀ k2 : ℕ,
        (∑ a1 in Finset.range M, ∑ a2 in Finset.range N,
            G a1 a2 * wexp M ((a1 : ℤ) * k1) * wexp N ((a2 : ℤ) * k2))
        = ∑ a2 in Finset.range N,
            (fun a2 => ∑ a1 in Finset.range M,
              G a1 a2 * wexp M ((a1 : ℤ) * k1)) a2
              * wexp N ((a2 : ℤ) * k2) := by
      intro k2
      rw [Finset.sum_comm]
      exact Finset.sum_congr rfl fun a2 _ => (Finset.sum_mul _ _ _).symm
    have hV : ∀ k2 : ℕ,
        (∑ b1 in Finset.range M, ∑ b2 in Finset.range N,
            V b1 b2 * wexp M ((b1 : ℤ) * k1) * wexp N ((b2 : ℤ) * k2))
        = ∑ b2 in Finset.range N,
            (fun b2 => ∑ b1 in Finset.range M,
              V b1 b2 * wexp M ((b1 : ℤ) * k1)) b2
              * wexp N ((b2 : ℤ) * k2) := by
      intro k2
      rw [Finset.sum_comm]
      exact Finset.sum_congr rfl fun b2 _ => (Finset.sum_mul _ _ _).symm
    calc ∑ k2 in Finset.range N,
        (∑ a1 in Finset.range M, ∑ a2 in Finset.range N,
            G a1 a2 * wexp M ((a1 : ℤ) * k1) * wexp N ((a2 : ℤ) * k2))
          * (∑ b1 in Finset.range M, ∑ b2 in Finset.range N,
              V b1 b2 * wexp M ((b1 : ℤ) * k1) * wexp N ((b2 : ℤ) * k2))
          * wexp M (-((i1 : ℤ) * k1)) * wexp N (-((i2 : ℤ) * k2))
        = (∑ k2 in Finset.range N,
            (∑ a2 in Finset.range N,
              (fun a2 => ∑ a1 in Finset.range M,
                G a1 a2 * wexp M ((a1 : ℤ) * k1)) a2
                * wexp N ((a2 : ℤ) * k2))
            * (∑ b2 in Finset.range N,
              (fun b2 => ∑ b1 in Finset.range M,
                V b1 b2 * wexp M ((b1 : ℤ) * k1)) b2
                * wexp N ((b2 : ℤ) * k2))
            * wexp N (-((i2 : ℤ) * k2))) * wexp M (-((i1 : ℤ) * k1)) := by
          rw [Finset.sum_mul]
          refine Finset.sum_congr rfl fun k2 _ => ?_
          rw [hG k2, hV k2]
          ring
      _ = ((N : ℂ) * ∑ b2 in Finset.range N,
            (fun a2 => ∑ a1 in Finset.range M,
              G a1 a2 * wexp M ((a1 : ℤ) * k1))
                ((((i2 : ℤ) - b2) % (N : ℤ)).toNat)
            * (fun b2 => ∑ b1 in Finset.range M,
                V b1 b2 * wexp M ((b1 : ℤ) * k1)) b2)
          * wexp M (-((i1 : ℤ) * k1)) := by
          rw [dft_conv1 N hN _ _ i2 hi2]
      _ = ((∑ b2 in Finset.range N,
            (∑ a1 in Finset.range M,
              G a1 ((((i2 : ℤ) - b2) % (N : ℤ)).toNat)
                * wexp M ((a1 : ℤ) * k1))
            * (∑ b1 in Finset.range M, V b1 b2 * wexp M ((b1 : ℤ) * k1)))
          * wexp M (-((i1 : ℤ) * k1))) * N := by
          ring
  rw [Finset.sum_congr rfl fun k1 _ => hinner k1]
  rw [← Finset.sum_mul]
  have hswap : ∑ k1 in Finset.range M,
      (∑ b2 in Finset.range N,
        (∑ a1 in Finset.range M,
          G a1 ((((i2 : ℤ) - b2) % (N : ℤ)).toNat) * wexp M ((a1 : ℤ) * k1))
        * (∑ b1 in Finset.range M, V b1 b2 * wexp M ((b1 : ℤ) * k1)))
      * wexp M (-((i1 : ℤ) * k1))
      = ∑ b2 in Finset.range N, ∑ k1 in Finset.range M,
        (∑ a1 in Finset.range M,
          G a1 ((((i2 : ℤ) - b2) % (N : ℤ)).toNat) * wexp M ((a1 : ℤ) * k1))
        * (∑ b1 in Finset.range M, V b1 b2 * wexp M ((b1 : ℤ) * k1))
        * wexp M (-((i1 : ℤ) * k1)) := by
    rw [Finset.sum_congr rfl fun k1 _ => Finset.sum_mul _ _ _]
    exact Finset.sum_comm
  rw [hswap]
  have hper : ∀ b2 ∈ Finset.range N,
      ∑ k1 in Finset.range M,
        (∑ a1 in Finset.range M,
          G a1 ((((i2 : ℤ) - b2) % (N : ℤ)).toNat) * wexp M ((a1 : ℤ) * k1))
        * (∑ b1 in Finset.range M, V b1 b2 * wexp M ((b1 : ℤ) * k1))
        * wexp M (-((i1 : ℤ) * k1))
      = (M : ℂ) * ∑ b1 in Finset.range M,
          G ((((i1 : ℤ) - b1) % (M : ℤ)).toNat)
            ((((i2 : ℤ) - b2) % (N : ℤ)).toNat) * V b1 b2 := by
    intro b2 _
    exact dft_conv1 M hM
      (fun a1 => G a1 ((((i2 : ℤ) - b2) % (N : ℤ)).toNat))
      (fun b1 => V b1 b2) i1 hi1
  rw [Finset.sum_congr rfl hper]
  rw [← Finset.mul_sum, Finset.sum_comm]
  ring

/-! ### Claim C7: the eigenvalue matrix -/

lemma ofReal_sqrt_cancel (x : ℝ) (hx : 0 < x) :
    (Complex.ofReal (Real.sqrt x)) * (Complex.ofReal (Real.sqrt x))⁻¹ = 1 :=
  mul_inv_cancel₀ (Complex.ofReal_ne_zero.mpr (Real.sqrt_ne_zero'.mpr hx))

/-- The successful run of eigenvalues_BCCB with "row" ordering: the gate
passes, the shape is (2 nblocks, 2 npoints_per_block), and the
sqrt(4*Q*P) scaling cancels the orthonormal normalization exactly, leaving
the plain (unnormalized) two-dimensional DFT of the reshaped first
column. -/
lemma eigenvalues_BCCB_ok_row (c0 : List ℝ) (Q P : ℕ) (sym : String)
    (hQ : 0 < Q) (hP : 0 < P) (hlen : c0.length = 4 * Q * P)
    (hsym : sym ∈ nine_symmetries) :
    ∃ E, eigenvalues_BCCB ⟨c0, Q, P, sym⟩ "row" = .ok E
      ∧ E.ordering = "row" ∧ E.nblocks = Q ∧ E.npoints_per_block = P
      ∧ E.symmetry = sym
      ∧ E.eigenvalues.rows = 2 * Q ∧ E.eigenvalues.cols = 2 * P
      ∧ ∀ k l : ℕ, E.eigenvalues.entry k l
          = ∑ j in Finset.range (2 * Q), ∑ s in Finset.range (2 * P),
              ((c0.getD (j * (2 * P) + s) 0 : ℝ) : ℂ)
                * wexp (2 * Q) ((j : ℤ) * k) * wexp (2 * P) ((s : ℤ) * l) := by
  rw [eigenvalues_BCCB]
  rw [if_neg (by simpa using hQ.ne'), if_neg (by simpa using hP.ne'),
    if_neg (by simpa using hlen), if_neg (by simpa using hsym),
    if_neg (by simp)]
  rw [if_pos rfl]
  refine ⟨_, rfl, rfl, rfl, rfl, rfl, rfl, rfl, fun k l => ?_⟩
  show (Complex.ofReal (Real.sqrt ((4 * Q * P : ℕ) : ℝ)))
      * ((Complex.ofReal (Real.sqrt (((2 * Q : ℕ) : ℝ) * ((2 * P : ℕ) : ℝ))))⁻¹
        * ∑ j in Finset.range (2 * Q), ∑ s in Finset.range (2 * P),
            ((c0.getD (j * (2 * P) + s) 0 : ℝ) : ℂ)
              * wexp (2 * Q) ((j : ℤ) * k) * wexp (2 * P) ((s : ℤ) * l)) = _
  rw [← mul_assoc]
  rw [show (((2 * Q : ℕ) : ℝ) * ((2 * P : ℕ) : ℝ)) = ((4 * Q * P : ℕ) : ℝ)
    from by push_cast; ring]
  rw [ofReal_sqrt_cancel _ (by positivity), one_mul]

/-- The successful run of eigenvalues_BCCB with "column" ordering: the
reshaped grid is transposed, so the shape is
(2 npoints_per_block, 2 nblocks) and the plain DFT runs over the transposed
grid. -/
lemma eigenvalues_BCCB_ok_col (c0 : List ℝ) (Q P : ℕ) (sym : String)
    (hQ : 0 < Q) (hP : 0 < P) (hlen : c0.length = 4 * Q * P)
    (hsym : sym ∈ nine_symmetries) :
    ∃ E, eigenvalues_BCCB ⟨c0, Q, P, sym⟩ "column" = .ok E
      ∧ E.ordering = "column" ∧ E.nblocks = Q ∧ E.npoints_per_block = P
      ∧ E.symmetry = sym
      ∧ E.eigenvalues.rows = 2 * P ∧ E.eigenvalues.cols = 2 * Q
      ∧ ∀ k l : ℕ, E.eigenvalues.entry k l
          = ∑ j in Finset.range (2 * P), ∑ s in Finset.range (2 * Q),
              ((c0.getD (s * (2 * P) + j) 0 : ℝ) : ℂ)
                * wexp (2 * P) ((j : ℤ) * k) * wexp (2 * Q) ((s : ℤ) * l) := by
  rw [eigenvalues_BCCB]
  rw [if_neg (by simpa using hQ.ne'), if_neg (by simpa using hP.ne'),
    if_neg (by simpa using hlen), if_neg (by simpa using hsym),
    if_neg (by simp)]
  rw [if_neg (by simp)]
  refine ⟨_, rfl, rfl, rfl, rfl, rfl, rfl, rfl, fun k l => ?_⟩
  show (Complex.ofReal (Real.sqrt ((4 * Q * P : ℕ) : ℝ)))
      * ((Complex.ofReal (Real.sqrt (((2 * P : ℕ) : ℝ) * ((2 * Q : ℕ) : ℝ))))⁻¹
        * ∑ j in Finset.range (2 * P), ∑ s in Finset.range (2 * Q),
            ((c0.getD (s * (2 * P) + j) 0 : ℝ) : ℂ)
              * wexp (2 * P) ((j : ℤ) * k) * wexp (2 * Q) ((s : ℤ) * l)) = _
  rw [← mul_assoc]
  rw [show (((2 * P : ℕ) : ℝ) * ((2 * Q : ℕ) : ℝ)) = ((4 * Q * P : ℕ) : ℝ)
    from by push_cast; ring]
  rw [ofReal_sqrt_cancel _ (by positivity), one_mul]

/-- C7: eigenvalues_BCCB reshapes the length 4*Q*P first column into a
(2Q) x (2P) grid row-major for "row" ordering (its transpose for "column"
ordering) and returns sqrt(4*Q*P) times its orthonormal 2D DFT — equal, by
exact cancellation of the normalization, to the unnormalized DFT sum — with
the shape of the reshaped grid; for nblocks = npoints_per_block = 1 the
eigenvalue matrix has shape exactly (2, 2). -/
theorem C7_eigenvalues_shape_and_scaling (c0 : List ℝ) (Q P : ℕ)
    (sym : String) (hQ : 0 < Q) (hP : 0 < P) (hlen : c0.length = 4 * Q * P)
    (hsym : sym ∈ nine_symmetries) :
    (∃ E, eigenvalues_BCCB ⟨c0, Q, P, sym⟩ "row" = .ok E
      ∧ E.eigenvalues.rows = 2 * Q ∧ E.eigenvalues.cols = 2 * P
      ∧ ∀ k l : ℕ, E.eigenvalues.entry k l
          = ∑ j in Finset.range (2 * Q), ∑ s in Finset.range (2 * P),
              (((reshape_row c0 (2 * Q) (2 * P)).entry j s))
                * wexp (2 * Q) ((j : ℤ) * k) * wexp (2 * P) ((s : ℤ) * l))
    ∧ (∃ E, eigenvalues_BCCB ⟨c0, Q, P, sym⟩ "column" = .ok E
      ∧ E.eigenvalues.rows = 2 * P ∧ E.eigenvalues.cols = 2 * Q
      ∧ ∀ k l : ℕ, E.eigenvalues.entry k l
          = ∑ j in Finset.range (2 * P), ∑ s in Finset.range (2 * Q),
              ((transpose_grid (reshape_row c0 (2 * Q) (2 * P))).entry j s)
                * wexp (2 * P) ((j : ℤ) * k) * wexp (2 * Q) ((s : ℤ) * l))
    ∧ (Q = 1 → P = 1 →
        ∃ E, eigenvalues_BCCB ⟨c0, Q, P, sym⟩ "row" = .ok E
          ∧ E.eigenvalues.rows = 2 ∧ E.eigenvalues.cols = 2) := by
  obtain ⟨E1, hE1, -, -, -, -, hr1, hc1, hent1⟩ :=
    eigenvalues_BCCB_ok_row c0 Q P sym hQ hP hlen hsym
  obtain ⟨E2, hE2, -, -, -, -, hr2, hc2, hent2⟩ :=
    eigenvalues_BCCB_ok_col c0 Q P sym hQ hP hlen hsym
  refine ⟨⟨E1, hE1, hr1, hc1, fun k l => ?_⟩,
    ⟨E2, hE2, hr2, hc2, fun k l => ?_⟩, ?_⟩
  · rw [hent1 k l]
    rfl
  · rw [hent2 k l]
    rfl
  · intro hq1 hp1
    subst hq1
    subst hp1
    exact ⟨E1, hE1, hr1, hc1⟩

/-- C7 witness at a concrete input. -/
theorem C7_eigenvalues_shape_and_scaling_witness :
    (0 < 1 ∧ 0 < 1 ∧ ([1, 0, 0, 0] : List ℝ).length = 4 * 1 * 1
      ∧ "symm-symm" ∈ nine_symmetries)
    ∧ (∃ E, eigenvalues_BCCB ⟨[1, 0, 0, 0], 1, 1, "symm-symm"⟩ "row" = .ok E
        ∧ E.eigenvalues.rows = 2 * 1 ∧ E.eigenvalues.cols = 2 * 1) := by
  refine ⟨⟨by decide, by decide, by simp, by decide⟩, ?_⟩
  obtain ⟨⟨E, hE, hr, hc, -⟩, -, -⟩ :=
    C7_eigenvalues_shape_and_scaling [1, 0, 0, 0] 1 1 "symm-symm"
      (by decide) (by decide) (by simp) (by decide)
  exact ⟨E, hE, hr, hc⟩

/-! ### The fast product in exact arithmetic -/

lemma getD_map_range {A : Type} (f : ℕ → A) (n a : ℕ) (d : A) (h : a < n) :
    ((List.range n).map f).getD a d = f a := by
  rw [List.getD_eq_getElem?_getD, List.getElem?_map, List.getElem?_range h]
  rfl

lemma index_div (i1 i2 P : ℕ) (hP : 0 < P) (h2 : i2 < P) :
    (i1 * P + i2) / P = i1 := by
  rw [Nat.mul_comm i1 P, Nat.mul_add_div hP, Nat.div_eq_of_lt h2]
  omega

lemma index_mod (i1 i2 P : ℕ) (h2 : i2 < P) :
    (i1 * P + i2) % P = i2 := by
  rw [Nat.mul_comm i1 P, Nat.mul_add_mod, Nat.mod_eq_of_lt h2]

lemma inv_sqrt_sq (x : ℝ) (hx : 0 ≤ x) :
    (Complex.ofReal (Real.sqrt x))⁻¹ * (Complex.ofReal (Real.sqrt x))⁻¹
      = (Complex.ofReal x)⁻¹ := by
  rw [← mul_inv]
  congr 1
  rw [← Complex.ofReal_mul, Real.mul_self_sqrt hx]

/-- Restricting the padded convolution sum to the original quadrant and
pulling the real scalars out of the complex sum. -/
lemma conv_sum_real (c0 v : List ℝ) (Q P : ℕ) (i1 i2 : ℕ) :
    ∑ b1 in Finset.range (2 * Q), ∑ b2 in Finset.range (2 * P),
        ((c0.getD ((((i1 : ℤ) - b1) % ((2 * Q : ℕ) : ℤ)).toNat * (2 * P)
            + (((i2 : ℤ) - b2) % ((2 * P : ℕ) : ℤ)).toNat) 0 : ℝ) : ℂ)
          * (if b1 < Q ∧ b2 < P
              then ((v.getD (b1 * P + b2) 0 : ℝ) : ℂ) else 0)
      = ((∑ b1 in Finset.range Q, ∑ b2 in Finset.range P,
            c0.getD ((((i1 : ℤ) - b1) % ((2 * Q : ℕ) : ℤ)).toNat * (2 * P)
              + (((i2 : ℤ) - b2) % ((2 * P : ℕ) : ℤ)).toNat) 0
            * v.getD (b1 * P + b2) 0 : ℝ) : ℂ) := by
  rw [Complex.ofReal_sum]
  rw [← Finset.sum_subset (Finset.range_subset.mpr (show Q ≤ 2 * Q by omega))
    (fun b1 _ hb1out => Finset.sum_eq_zero fun b2 _ => by
      rw [if_neg (fun hc => hb1out (Finset.mem_range.mpr hc.1)), mul_zero])]
  refine Finset.sum_congr rfl fun b1 hb1 => ?_
  have hb1Q : b1 < Q := Finset.mem_range.mp hb1
  rw [Complex.ofReal_sum]
  rw [← Finset.sum_subset (Finset.range_subset.mpr (show P ≤ 2 * P by omega))
    (fun b2 _ hb2out => by
      rw [if_neg (fun hc => hb2out (Finset.mem_range.mpr hc.2)), mul_zero])]
  refine Finset.sum_congr rfl fun b2 hb2 => ?_
  rw [if_pos ⟨hb1Q, Finset.mem_range.mp hb2⟩, Complex.ofReal_mul]

/-- Evaluating the fast multiplier exactly: with "row" ordering,
product_BCCB_vector applied to the eigenvalues of a first column c0
succeeds, returns nblocks*npoints_per_block reals, and the entry indexed
(i1, i2) is the two-dimensional circular convolution of the reshaped first
column with the vector, restricted to the original quadrant. -/
lemma product_formula (c0 v : List ℝ) (Q P : ℕ) (sym : String)
    (hQ : 0 < Q) (hP : 0 < P) (hlen : c0.length = 4 * Q * P)
    (hsym : sym ∈ nine_symmetries) (hv : v.length = Q * P) :
    ∃ E w, eigenvalues_BCCB ⟨c0, Q, P, sym⟩ "row" = .ok E
      ∧ product_BCCB_vector E v true = .ok w
      ∧ w.length = Q * P
      ∧ ∀ i1 i2 : ℕ, i1 < Q → i2 < P →
          w.getD (i1 * P + i2) 0
            = ∑ b1 in Finset.range Q, ∑ b2 in Finset.range P,
                c0.getD ((((i1 : ℤ) - b1) % ((2 * Q : ℕ) : ℤ)).toNat * (2 * P)
                    + (((i2 : ℤ) - b2) % ((2 * P : ℕ) : ℤ)).toNat) 0
                  * v.getD (b1 * P + b2) 0 := by
  obtain ⟨E, hE, hord, hnb, hnp, hsy, hr, hc, hent⟩ :=
    eigenvalues_BCCB_ok_row c0 Q P sym hQ hP hlen hsym
  have hprod : product_BCCB_vector E v true
      = .ok ((List.range (E.nblocks * E.npoints_per_block)).map (fun a =>
          ((ifft2 (hadamard E.eigenvalues
              (fft2 (pad_grid_row v E.nblocks E.npoints_per_block)))).entry
            (a / E.npoints_per_block) (a % E.npoints_per_block)).re)) := by
    rw [product_BCCB_vector, if_pos rfl]
    rw [if_neg (show ¬(E.ordering ≠ "row" ∧ E.ordering ≠ "column") from
      fun hcon => hcon.1 hord)]
    rw [if_neg (show ¬¬0 < E.nblocks from
      fun hcon => hcon (by rw [hnb]; exact hQ))]
    rw [if_neg (show ¬¬0 < E.npoints_per_block from
      fun hcon => hcon (by rw [hnp]; exact hP))]
    rw [if_neg (show ¬(E.ordering = "row"
        ∧ ¬(E.eigenvalues.rows = 2 * E.nblocks
            ∧ E.eigenvalues.cols = 2 * E.npoints_per_block)) from
      fun hcon => hcon.2 ⟨by rw [hr, hnb], by rw [hc, hnp]⟩)]
    rw [if_neg (show ¬(E.ordering = "column"
        ∧ ¬(E.eigenvalues.rows = 2 * E.npoints_per_block
            ∧ E.eigenvalues.cols = 2 * E.nblocks)) from
      fun hcon => (show ("row" : String) ≠ "column" by decide) (hord ▸ hcon.1))]
    rw [if_neg (show ¬v.length ≠ E.nblocks * E.npoints_per_block from
      fun hcon => hcon (by rw [hnb, hnp]; exact hv))]
    simp only [if_pos hord]
  rw [hnb, hnp] at hprod
  have hW : ∀ i1 i2 : ℕ, i1 < 2 * Q → i2 < 2 * P →
      (ifft2 (hadamard E.eigenvalues (fft2 (pad_grid_row v Q P)))).entry i1 i2
        = ((∑ b1 in Finset.range Q, ∑ b2 in Finset.range P,
            c0.getD ((((i1 : ℤ) - b1) % ((2 * Q : ℕ) : ℤ)).toNat * (2 * P)
              + (((i2 : ℤ) - b2) % ((2 * P : ℕ) : ℤ)).toNat) 0
              * v.getD (b1 * P + b2) 0 : ℝ) : ℂ) := by
    intro i1 i2 hi1 hi2
    have hconv := dft_conv2 (2 * Q) (2 * P) (by omega) (by omega)
      (fun j s => ((c0.getD (j * (2 * P) + s) 0 : ℝ) : ℂ))
      (fun b1 b2 => if b1 < Q ∧ b2 < P
        then ((v.getD (b1 * P + b2) 0 : ℝ) : ℂ) else 0)
      i1 i2 hi1 hi2
    simp only [] at hconv
    simp only [ifft2, hadamard, fft2, pad_grid_row, hr, hc]
    have hsum : ∑ k1 in Finset.range (2 * Q), ∑ k2 in Finset.range (2 * P),
        E.eigenvalues.entry k1 k2
          * ((Complex.ofReal
              (Real.sqrt (((2 * Q : ℕ) : ℝ) * ((2 * P : ℕ) : ℝ))))⁻¹
            * ∑ b1 in Finset.range (2 * Q), ∑ b2 in Finset.range (2 * P),
              (if b1 < Q ∧ b2 < P
                then ((v.getD (b1 * P + b2) 0 : ℝ) : ℂ) else 0)
                * wexp (2 * Q) ((b1 : ℤ) * k1) * wexp (2 * P) ((b2 : ℤ) * k2))
          * wexp (2 * Q) (-((i1 : ℤ) * k1)) * wexp (2 * P) (-((i2 : ℤ) * k2))
      = (Complex.ofReal
          (Real.sqrt (((2 * Q : ℕ) : ℝ) * ((2 * P : ℕ) : ℝ))))⁻¹
        * ∑ k1 in Finset.range (2 * Q), ∑ k2 in Finset.range (2 * P),
          (∑ a1 in Finset.range (2 * Q), ∑ a2 in Finset.range (2 * P),
              ((c0.getD (a1 * (2 * P) + a2) 0 : ℝ) : ℂ)
                * wexp (2 * Q) ((a1 : ℤ) * k1) * wexp (2 * P) ((a2 : ℤ) * k2))
            * (∑ b1 in Finset.range (2 * Q), ∑ b2 in Finset.range (2 * P),
                (if b1 < Q ∧ b2 < P
                  then ((v.getD (b1 * P + b2) 0 : ℝ) : ℂ) else 0)
                  * wexp (2 * Q) ((b1 : ℤ) * k1)
                  * wexp (2 * P) ((b2 : ℤ) * k2))
            * wexp (2 * Q) (-((i1 : ℤ) * k1))
            * wexp (2 * P) (-((i2 : ℤ) * k2)) := by
      rw [Finset.mul_sum]
      refine Finset.sum_congr rfl fun k1 _ => ?_
      rw [Finset.mul_sum]
      refine Finset.sum_congr rfl fun k2 _ => ?_
      rw [hent k1 k2]
      ring
    rw [hsum, hconv]
    rw [← mul_assoc, inv_sqrt_sq _ (by positivity)]
    rw [show ((((2 * Q : ℕ) : ℝ) * ((2 * P : ℕ) : ℝ) : ℝ) : ℂ)
        = ((2 * Q : ℕ) : ℂ) * ((2 * P : ℕ) : ℂ) from by push_cast; ring]
    rw [← mul_assoc, inv_mul_cancel₀ (mul_ne_zero
      (Nat.cast_ne_zero.mpr (by omega)) (Nat.cast_ne_zero.mpr (by omega))),
      one_mul]
    exact conv_sum_real c0 v Q P i1 i2
  refine ⟨E, _, hE, hprod, by simp, ?_⟩
  intro i1 i2 h1 h2
  have hb : i1 * P + i2 < Q * P :=
    lt_of_lt_of_le (show i1 * P + i2 < (i1 + 1) * P by rw [Nat.succ_mul]; omega)
      (Nat.mul_le_mul_right P h1)
  rw [getD_map_range _ _ _ _ hb, index_div i1 i2 P hP h2,
    index_mod i1 i2 P h2, hW i1 i2 (by omega) (by omega), Complex.ofReal_re]

/-! ### The concatenated generator list: shape facts for all nine patterns -/

/-- The rows list the source loops actually traverse: the given rows when
present, placeholders otherwise. -/
def effective_rows (columns : List (List ℝ))
    (rows : Option (List (List ℝ))) : List (List ℝ) :=
  match rows with
  | some rs => rs
  | none => dummy_rows columns

lemma concatenated_blocks_eq (ss sb : String) (Q : ℕ)
    (columns : List (List ℝ)) (rows : Option (List (List ℝ))) :
    concatenated_blocks ss sb Q columns rows
      = if ss = "symm" ∨ ss = "skew" then
          (if ss = "skew"
            then (((List.zipWith (toeplitz_gen sb) columns
                (effective_rows columns rows)).drop 1).reverse).map
              (fun b => b.map (fun x => -x))
            else ((List.zipWith (toeplitz_gen sb) columns
                (effective_rows columns rows)).drop 1).reverse)
          ++ List.zipWith (toeplitz_gen sb) columns
              (effective_rows columns rows)
        else
          (List.zipWith (toeplitz_gen sb) (columns.drop Q)
              ((effective_rows columns rows).drop Q)).reverse
            ++ List.zipWith (toeplitz_gen sb) (columns.take Q)
                ((effective_rows columns rows).take Q) := by
  cases rows <;> rfl

lemma effective_rows_length (columns : List (List ℝ))
    (rows : Option (List (List ℝ)))
    (h : ∀ rs, rows = some rs → rs.length = columns.length) :
    (effective_rows columns rows).length = columns.length := by
  cases rows with
  | none => simp [effective_rows, dummy_rows]
  | some rs => exact h rs rfl

lemma zipWith_toeplitz_lengths (sb : String) (P : ℕ)
    (cs rs : List (List ℝ)) (hP : 0 < P)
    (hc : ∀ c ∈ cs, c.length = P)
    (hr : ¬(sb = "symm" ∨ sb = "skew") → ∀ r ∈ rs, r.length + 1 = P) :
    ∀ g ∈ List.zipWith (toeplitz_gen sb) cs rs, g.length = 2 * P - 1 := by
  induction cs generalizing rs with
  | nil => simp
  | cons c cs ih =>
    cases rs with
    | nil => simp
    | cons r rs =>
      intro g hg
      simp only [List.zipWith_cons_cons, List.mem_cons] at hg
      rcases hg with rfl | hg
      · have hcl : c.length = P := hc c (by simp)
        rw [toeplitz_gen]
        split
        · simp [hcl]
          omega
        · split
          · next h1 h2 =>
            simp [hcl]
            omega
          · next h1 h2 =>
            have hrl : r.length + 1 = P :=
              hr (by tauto) r (by simp)
            simp [hcl]
            omega
      · exact ih rs (fun x hx => hc x (by simp [hx]))
          (fun hsb x hx => hr hsb x (by simp [hx])) g hg

/-- Shape of the concatenated generator list for every valid metadata: 2Q-1
generators, each of length 2P-1 where P is the block width. -/
lemma cb_facts (ss sb : String) (Q : ℕ) (columns : List (List ℝ))
    (rows : Option (List (List ℝ)))
    (hmeta : BTTB_metadata_ok ss sb Q columns rows = true) :
    (concatenated_blocks ss sb Q columns rows).length = 2 * Q - 1
    ∧ ∀ g ∈ concatenated_blocks ss sb Q columns rows,
        g.length = 2 * width columns - 1 := by
  obtain ⟨hQ, hP0, hall, hclen, hss, hsb, hrs_some, hrs_none⟩ :=
    BTTB_metadata_ok_spec hmeta
  have hrlen : (effective_rows columns rows).length = columns.length :=
    effective_rows_length columns rows (fun rs h => (hrs_some rs h).2.1)
  have hrall : ¬(sb = "symm" ∨ sb = "skew") →
      ∀ r ∈ effective_rows columns rows, r.length + 1 = width columns := by
    intro hsbg r hr
    cases hrows : rows with
    | none =>
      exfalso
      have := hrs_none hrows
      tauto
    | some rs =>
      rw [hrows] at hr
      exact (hrs_some rs hrows).2.2 r hr
  rw [concatenated_blocks_eq]
  by_cases hpure : ss = "symm" ∨ ss = "skew"
  · rw [if_pos hpure]
    have hcQ : columns.length = Q := by
      rw [hclen, if_neg (by rcases hpure with rfl | rfl <;> decide)]
    have hblen : (List.zipWith (toeplitz_gen sb) columns
        (effective_rows columns rows)).length = Q := by
      rw [List.length_zipWith, hrlen, Nat.min_self, hcQ]
    have hbl : ∀ g ∈ List.zipWith (toeplitz_gen sb) columns
        (effective_rows columns rows), g.length = 2 * width columns - 1 :=
      zipWith_toeplitz_lengths sb (width columns) _ _ hP0 hall hrall
    constructor
    · rw [List.length_append, hblen]
      split <;>
        simp only [List.length_map, List.length_reverse, List.length_drop,
          hblen] <;> omega
    · intro g hg
      rw [List.mem_append] at hg
      rcases hg with hg | hg
      · revert hg
        split
        · intro hg
          simp only [List.mem_map, List.mem_reverse] at hg
          obtain ⟨b, hb, rfl⟩ := hg
          rw [List.length_map]
          exact hbl b (List.mem_of_mem_drop hb)
        · intro hg
          rw [List.mem_reverse] at hg
          exact hbl g (List.mem_of_mem_drop hg)
      · exact hbl g hg
  · rw [if_neg hpure]
    have hcQ : columns.length = 2 * Q - 1 := by
      rw [hclen, if_pos (by tauto)]
    have hlen1 : (List.zipWith (toeplitz_gen sb) (columns.take Q)
        ((effective_rows columns rows).take Q)).length = Q := by
      rw [List.length_zipWith, List.length_take, List.length_take,
        hrlen, hcQ]
      omega
    have hlen2 : (List.zipWith (toeplitz_gen sb) (columns.drop Q)
        ((effective_rows columns rows).drop Q)).length = Q - 1 := by
      rw [List.length_zipWith, List.length_drop, List.length_drop,
        hrlen, hcQ]
      omega
    constructor
    · rw [List.length_append, List.length_reverse, hlen1, hlen2]
      omega
    · intro g hg
      rw [List.mem_append, List.mem_reverse] at hg
      rcases hg with hg | hg
      · exact zipWith_toeplitz_lengths sb (width columns) _ _ hP0
          (fun c hc => hall c (List.mem_of_mem_drop hc))
          (fun hsbg r hr => hrall hsbg r (List.mem_of_mem_drop hr)) g hg
      · exact zipWith_toeplitz_lengths sb (width columns) _ _ hP0
          (fun c hc => hall c (List.mem_of_mem_take hc))
          (fun hsbg r hr => hrall hsbg r (List.mem_of_mem_take hr)) g hg

/-! ### Indexing the spec first column recovers the BTTB gather -/

lemma circ_embed_gen_length (P : ℕ) (g : List ℝ) (hP : 0 < P)
    (hg : g.length = 2 * P - 1) :
    (circ_embed_gen P g).length = 2 * P := by
  rw [circ_embed_gen]
  simp only [List.length_append, List.length_cons, List.length_nil,
    List.length_drop, List.length_take, hg]
  omega

/-- Reading the circulant embedding of one generator at the wrapped offset
(i2 - b2) mod 2P recovers the generator entry the BTTB gather reads at
in-block position i2 + (P-1-b2). -/
lemma circ_embed_gen_getD (P : ℕ) (g : List ℝ) (hP : 0 < P)
    (hg : g.length = 2 * P - 1) (i2 b2 : ℕ) (hi2 : i2 < P) (hb2 : b2 < P) :
    (circ_embed_gen P g).getD
        ((((i2 : ℤ) - (b2 : ℤ)) % ((2 * P : ℕ) : ℤ)).toNat) 0
      = g.getD (i2 + (P - 1 - b2)) 0 := by
  have hdlen : (g.drop (P - 1)).length = P := by
    simp only [List.length_drop, hg]
    omega
  have htlen : (g.take (P - 1)).length = P - 1 := by
    simp only [List.length_take, hg]
    omega
  rcases le_or_lt b2 i2 with hle | hlt
  · rw [emod_sub_of_le i2 b2 (2 * P) hle (by omega)]
    rw [circ_embed_gen,
      getD_append_left _ _ _ _ (by
        simp only [List.length_append, List.length_cons, List.length_nil,
          hdlen]
        omega),
      getD_append_left _ _ _ _ (by rw [hdlen]; omega),
      getD_drop]
    congr 1
    omega
  · rw [emod_sub_of_gt i2 b2 (2 * P) hlt (by omega)]
    rw [circ_embed_gen,
      getD_append_right _ _ _ _ (by
        simp only [List.length_append, List.length_cons, List.length_nil,
          hdlen]
        omega),
      getD_take _ _ _ _ (by
        simp only [List.length_append, List.length_cons, List.length_nil,
          hdlen]
        omega)]
    congr 1
    simp only [List.length_append, List.length_cons, List.length_nil, hdlen]
    omega

/-- Reading the spec first column at the wrapped two-dimensional offset
recovers exactly the generator entry that the dense gather of generic_BTTB
reads: block i1 + (Q-1-b1) of the concatenated generator list at in-block
position i2 + (P-1-b2). -/
lemma spec_column_getD (ss sb : String) (Q P : ℕ)
    (columns : List (List ℝ)) (rows : Option (List (List ℝ)))
    (hQ : 0 < Q) (hP : 0 < P) (hw : width columns = P)
    (hcb : (concatenated_blocks ss sb Q columns rows).length = 2 * Q - 1)
    (hgen : ∀ g ∈ concatenated_blocks ss sb Q columns rows,
        g.length = 2 * P - 1)
    (i1 b1 i2 b2 : ℕ) (hi1 : i1 < Q) (hb1 : b1 < Q) (hi2 : i2 < P)
    (hb2 : b2 < P) :
    (BCCB_first_column_spec ss sb Q columns rows).getD
        ((((i1 : ℤ) - (b1 : ℤ)) % ((2 * Q : ℕ) : ℤ)).toNat * (2 * P)
          + (((i2 : ℤ) - (b2 : ℤ)) % ((2 * P : ℕ) : ℤ)).toNat) 0
      = ((concatenated_blocks ss sb Q columns rows).getD
          (i1 + (Q - 1 - b1)) []).getD (i2 + (P - 1 - b2)) 0 := by
  set cb := concatenated_blocks ss sb Q columns rows with hcbdef
  have hblocks : BCCB_blocks_spec ss sb Q columns rows
      = ((cb.drop (Q - 1)).map (circ_embed_gen P))
        ++ [List.replicate (2 * P) 0]
        ++ ((cb.take (Q - 1)).map (circ_embed_gen P)) := by
    rw [BCCB_blocks_spec, hw]
  have hfwd_len : (cb.drop (Q - 1)).length = Q := by
    simp only [List.length_drop, hcb]
    omega
  have hbwd_len : (cb.take (Q - 1)).length = Q - 1 := by
    simp only [List.length_take, hcb]
    omega
  have hblock_len : ∀ l ∈ BCCB_blocks_spec ss sb Q columns rows,
      l.length = 2 * P := by
    intro l hl
    rw [hblocks] at hl
    simp only [List.mem_append, List.mem_singleton] at hl
    rcases hl with (hl | rfl) | hl
    · obtain ⟨g, hgm, rfl⟩ := List.mem_map.mp hl
      exact circ_embed_gen_length P g hP (hgen g (List.mem_of_mem_drop hgm))
    · simp
    · obtain ⟨g, hgm, rfl⟩ := List.mem_map.mp hl
      exact circ_embed_gen_length P g hP (hgen g (List.mem_of_mem_take hgm))
  have hspec_len : (BCCB_blocks_spec ss sb Q columns rows).length = 2 * Q := by
    rw [hblocks]
    simp only [List.length_append, List.length_map, List.length_cons,
      List.length_nil, hfwd_len, hbwd_len]
    omega
  have hr2lt : (((i2 : ℤ) - (b2 : ℤ)) % ((2 * P : ℕ) : ℤ)).toNat < 2 * P := by
    rcases le_or_lt b2 i2 with h | h
    · rw [emod_sub_of_le i2 b2 (2 * P) h (by omega)]
      omega
    · rw [emod_sub_of_gt i2 b2 (2 * P) h (by omega)]
      omega
  have hr1lt : (((i1 : ℤ) - (b1 : ℤ)) % ((2 * Q : ℕ) : ℤ)).toNat < 2 * Q := by
    rcases le_or_lt b1 i1 with h | h
    · rw [emod_sub_of_le i1 b1 (2 * Q) h (by omega)]
      omega
    · rw [emod_sub_of_gt i1 b1 (2 * Q) h (by omega)]
      omega
  rw [BCCB_first_column_spec,
    flatten_getD _ (2 * P) hblock_len _ _ (by rw [hspec_len]; exact hr1lt)
      hr2lt]
  have hidx : i1 + (Q - 1 - b1) < 2 * Q - 1 := by omega
  have hglen : (cb.getD (i1 + (Q - 1 - b1)) []).length = 2 * P - 1 :=
    hgen _ (getD_mem_list cb _ (by rw [hcb]; omega))
  have hsel : (BCCB_blocks_spec ss sb Q columns rows).getD
      ((((i1 : ℤ) - (b1 : ℤ)) % ((2 * Q : ℕ) : ℤ)).toNat) []
      = circ_embed_gen P (cb.getD (i1 + (Q - 1 - b1)) []) := by
    rw [hblocks]
    rcases le_or_lt b1 i1 with hle | hlt
    · rw [emod_sub_of_le i1 b1 (2 * Q) hle (by omega)]
      rw [getD_append_left _ _ _ _ (by
          simp only [List.length_append, List.length_map, List.length_cons,
            List.length_nil, hfwd_len]
          omega),
        getD_append_left _ _ _ _ (by
          simp only [List.length_map, hfwd_len]
          omega),
        getD_map_list _ _ _ _ [] (by rw [hfwd_len]; omega),
        getD_drop]
      congr 2
      omega
    · rw [emod_sub_of_gt i1 b1 (2 * Q) hlt (by omega)]
      rw [getD_append_right _ _ _ _ (by
          simp only [List.length_append, List.length_map, List.length_cons,
            List.length_nil, hfwd_len]
          omega)]
      have hshift : 2 * Q - (b1 - i1)
          - (((cb.drop (Q - 1)).map (circ_embed_gen P))
              ++ [List.replicate (2 * P) (0 : ℝ)]).length
          = i1 + (Q - 1 - b1) := by
        simp only [List.length_append, List.length_map, List.length_cons,
          List.length_nil, hfwd_len]
        omega
      rw [hshift,
        getD_map_list _ _ _ _ [] (by rw [hbwd_len]; omega),
        getD_take _ _ _ _ (by omega)]
  rw [hsel,
    circ_embed_gen_getD P _ hP hglen i2 b2 hi2 hb2]

/-! ### Claim C1: the fast product equals the dense product -/

lemma sum_range_mul (Q P : ℕ) (f : ℕ → ℝ) :
    ∑ b in Finset.range (Q * P), f b
      = ∑ b1 in Finset.range Q, ∑ b2 in Finset.range P, f (b1 * P + b2) := by
  induction Q with
  | zero => simp
  | succ Q ih =>
    have hsplit : ∑ b in Finset.range (Q * P + P), f b
        = (∑ b in Finset.range (Q * P), f b)
          + ∑ i in Finset.range P, f (Q * P + i) := by
      have h2 : ∑ i in Finset.Ico (Q * P) (Q * P + P), f i
          = ∑ i in Finset.range P, f (Q * P + i) := by
        rw [Finset.sum_Ico_eq_sum_range, Nat.add_sub_cancel_left]
      rw [Finset.range_eq_Ico,
        ← Finset.sum_Ico_consecutive f (Nat.zero_le (Q * P))
          (Nat.le_add_right (Q * P) P), h2, ← Finset.range_eq_Ico]
    rw [Nat.succ_mul, hsplit, ih, Finset.sum_range_succ]

lemma spec_column_length (ss sb : String) (Q P : ℕ)
    (columns : List (List ℝ)) (rows : Option (List (List ℝ)))
    (hQ : 0 < Q) (hP : 0 < P) (hw : width columns = P)
    (hcb : (concatenated_blocks ss sb Q columns rows).length = 2 * Q - 1)
    (hgen : ∀ g ∈ concatenated_blocks ss sb Q columns rows,
        g.length = 2 * P - 1) :
    (BCCB_first_column_spec ss sb Q columns rows).length = 4 * Q * P := by
  have hblocks : BCCB_blocks_spec ss sb Q columns rows
      = (((concatenated_blocks ss sb Q columns rows).drop (Q - 1)).map
            (circ_embed_gen P))
        ++ [List.replicate (2 * P) 0]
        ++ (((concatenated_blocks ss sb Q columns rows).take (Q - 1)).map
            (circ_embed_gen P)) := by
    rw [BCCB_blocks_spec, hw]
  have hblock_len : ∀ l ∈ BCCB_blocks_spec ss sb Q columns rows,
      l.length = 2 * P := by
    intro l hl
    rw [hblocks] at hl
    simp only [List.mem_append, List.mem_singleton] at hl
    rcases hl with (hl | rfl) | hl
    · obtain ⟨g, hgm, rfl⟩ := List.mem_map.mp hl
      exact circ_embed_gen_length P g hP (hgen g (List.mem_of_mem_drop hgm))
    · simp
    · obtain ⟨g, hgm, rfl⟩ := List.mem_map.mp hl
      exact circ_embed_gen_length P g hP (hgen g (List.mem_of_mem_take hgm))
  have hcount : (BCCB_blocks_spec ss sb Q columns rows).length = 2 * Q := by
    rw [hblocks]
    simp only [List.length_append, List.length_map, List.length_cons,
      List.length_nil, List.length_drop, List.length_take, hcb]
    omega
  rw [BCCB_first_column_spec,
    flatten_length_uniform _ (2 * P) hblock_len, hcount]
  ring

lemma generic_BTTB_entry (ss sb : String) (Q : ℕ)
    (columns : List (List ℝ)) (rows : Option (List (List ℝ)))
    (hmeta : BTTB_metadata_ok ss sb Q columns rows = true) :
    ∃ T, generic_BTTB ss sb Q columns rows true = .ok T
      ∧ T.rows = Q * width columns ∧ T.cols = Q * width columns
      ∧ ∀ a b : ℕ, T.entry a b
          = ((concatenated_blocks ss sb Q columns rows).getD
              (a / width columns + (Q - 1 - b / width columns)) []).getD
            (a % width columns + (width columns - 1 - b % width columns))
            0 := by
  rw [generic_BTTB_ok hmeta]
  exact ⟨_, rfl, rfl, rfl, fun a b => rfl⟩

/-- C1: for every valid BTTBSpec metadata over any of the nine symmetry
combinations and every vector v of matching length, the whole fast pipeline
succeeds — eigenvalues_BCCB applied to the embedding BCCB's first column
(the column of section 4.3, spec-modelled because the source assembler
raises), then product_BCCB_vector — and in exact arithmetic the resulting
vector equals the dense matrix generic_BTTB(spec) times v, entry by
entry. -/
theorem C1_fast_product_equals_dense (ss sb : String) (Q : ℕ)
    (columns : List (List ℝ)) (rows : Option (List (List ℝ))) (v : List ℝ)
    (hmeta : BTTB_metadata_ok ss sb Q columns rows = true)
    (hv : v.length = Q * width columns) :
    ∃ E w T,
      eigenvalues_BCCB ⟨BCCB_first_column_spec ss sb Q columns rows, Q,
          width columns, ss ++ "-" ++ sb⟩ "row" = .ok E
      ∧ product_BCCB_vector E v true = .ok w
      ∧ generic_BTTB ss sb Q columns rows true = .ok T
      ∧ w.length = Q * width columns
      ∧ ∀ a : ℕ, a < Q * width columns →
          w.getD a 0 = ∑ b in Finset.range (Q * width columns),
              T.entry a b * v.getD b 0 := by
  obtain ⟨hQ, hP0, hall, hclen, hss, hsb, hrs_some, hrs_none⟩ :=
    BTTB_metadata_ok_spec hmeta
  obtain ⟨hcb, hgen⟩ := cb_facts ss sb Q columns rows hmeta
  have hsym : ss ++ "-" ++ sb ∈ nine_symmetries := by
    rcases hss with rfl | rfl | rfl <;> rcases hsb with rfl | rfl | rfl <;>
      decide
  have hc0len : (BCCB_first_column_spec ss sb Q columns rows).length
      = 4 * Q * width columns :=
    spec_column_length ss sb Q (width columns) columns rows hQ hP0 rfl hcb
      hgen
  obtain ⟨E, w, hE, hw, hwlen, hentry⟩ :=
    product_formula (BCCB_first_column_spec ss sb Q columns rows) v Q
      (width columns) (ss ++ "-" ++ sb) hQ hP0 hc0len hsym hv
  obtain ⟨T, hT, hTr, hTc, hTent⟩ :=
    generic_BTTB_entry ss sb Q columns rows hmeta
  refine ⟨E, w, T, hE, hw, hT, hwlen, ?_⟩
  intro a ha
  have hi1 : a / width columns < Q := by
    rw [Nat.div_lt_iff_lt_mul hP0]
    omega
  have hi2 : a % width columns < width columns := Nat.mod_lt a hP0
  have ha_eq : (a / width columns) * width columns + (a % width columns)
      = a := by
    rw [Nat.mul_comm]
    exact Nat.div_add_mod a (width columns)
  have h1 := hentry (a / width columns) (a % width columns) hi1 hi2
  rw [ha_eq] at h1
  rw [h1]
  rw [show (∑ b in Finset.range (Q * width columns),
        T.entry a b * v.getD b 0)
      = ∑ b1 in Finset.range Q, ∑ b2 in Finset.range (width columns),
          T.entry a (b1 * width columns + b2)
            * v.getD (b1 * width columns + b2) 0
    from sum_range_mul Q (width columns)
      (fun b => T.entry a b * v.getD b 0)]
  refine Finset.sum_congr rfl fun b1 hb1 => Finset.sum_congr rfl
    fun b2 hb2 => ?_
  have hb1' : b1 < Q := Finset.mem_range.mp hb1
  have hb2' : b2 < width columns := Finset.mem_range.mp hb2
  rw [hTent a (b1 * width columns + b2),
    index_div b1 b2 (width columns) hP0 hb2',
    index_mod b1 b2 (width columns) hb2',
    spec_column_getD ss sb Q (width columns) columns rows hQ hP0 rfl hcb
      hgen (a / width columns) b1 (a % width columns) b2 hi1 hb1' hi2 hb2']

/-- C1 witness: the concrete valid metadata ss = sb = "symm", nblocks = 1,
columns = [[1]], v = [1], with the conclusion instantiated there. -/
theorem C1_fast_product_equals_dense_witness :
    (BTTB_metadata_ok "symm" "symm" 1 [[1]] none = true
      ∧ ([1] : List ℝ).length = 1 * width [[1]])
    ∧ ∃ E w T,
      eigenvalues_BCCB ⟨BCCB_first_column_spec "symm" "symm" 1 [[1]] none, 1,
          width [[1]], "symm" ++ "-" ++ "symm"⟩ "row" = .ok E
      ∧ product_BCCB_vector E [1] true = .ok w
      ∧ generic_BTTB "symm" "symm" 1 [[1]] none true = .ok T
      ∧ w.length = 1 * width [[1]]
      ∧ ∀ a : ℕ, a < 1 * width [[1]] →
          w.getD a 0 = ∑ b in Finset.range (1 * width [[1]]),
              T.entry a b * ([1] : List ℝ).getD b 0 :=
  ⟨⟨by decide, by decide⟩,
    C1_fast_product_equals_dense "symm" "symm" 1 [[1]] none [1]
      (by decide) (by decide)⟩

/-! ### The compact first column equals the spec first column -/

lemma zipWith_dummy (sb : String) (cs : List (List ℝ)) :
    List.zipWith (toeplitz_gen sb) cs (dummy_rows cs)
      = cs.map (fun c => toeplitz_gen sb c []) := by
  induction cs with
  | nil => rfl
  | cons c cs ih =>
    rw [dummy_rows, List.map_cons, List.zipWith_cons_cons, List.map_cons,
      ← dummy_rows, ih]

lemma circ_embed_symm (P : ℕ) (bi : List ℝ) (hbi : bi.length = P) :
    circ_embed_gen P (toeplitz_gen "symm" bi [])
      = bi ++ [0] ++ (bi.drop 1).reverse := by
  rw [toeplitz_gen, if_pos rfl, circ_embed_gen,
    show P - 1 = ((bi.drop 1).reverse).length by simp [hbi],
    List.drop_left, List.take_left]

lemma circ_embed_skew (P : ℕ) (bi : List ℝ) (hbi : bi.length = P) :
    circ_embed_gen P (toeplitz_gen "skew" bi [])
      = bi ++ [0] ++ ((bi.drop 1).reverse).map (fun x => -x) := by
  rw [toeplitz_gen, if_neg (by decide), if_pos rfl, circ_embed_gen,
    show P - 1 = (((bi.drop 1).reverse).map (fun x => -x)).length
      by simp [hbi],
    List.drop_left, List.take_left]

lemma circ_embed_symm_neg (P : ℕ) (bi : List ℝ) (hbi : bi.length = P) :
    circ_embed_gen P ((toeplitz_gen "symm" bi []).map (fun x => -x))
      = (bi.map (fun x => -x)) ++ [0]
        ++ ((bi.drop 1).reverse).map (fun x => -x) := by
  rw [toeplitz_gen, if_pos rfl, List.map_append, circ_embed_gen,
    show P - 1 = (((bi.drop 1).reverse).map (fun x => -x)).length
      by simp [hbi],
    List.drop_left, List.take_left]

lemma circ_embed_skew_neg (P : ℕ) (bi : List ℝ) (hbi : bi.length = P) :
    circ_embed_gen P ((toeplitz_gen "skew" bi []).map (fun x => -x))
      = (bi.map (fun x => -x)) ++ [0] ++ (bi.drop 1).reverse := by
  rw [toeplitz_gen, if_neg (by decide), if_pos rfl, List.map_append]
  have hdouble : ((((bi.drop 1).reverse).map (fun x => -x)).map
      (fun x => -x)) = (bi.drop 1).reverse := by
    rw [List.map_map]
    simp
  rw [hdouble, circ_embed_gen,
    show P - 1 = ((bi.drop 1).reverse).length by simp [hbi],
    List.drop_left, List.take_left]

/-- The spec block list over a pure structure symmetry, written as maps over
the split parts: the circulant embeddings of the generators forward, the
zero spacer, and the embeddings of the (negated, for skew structure)
generators of the reversed tail backward. -/
lemma spec_blocks_pure (ss sb : String) (Q P : ℕ) (parts : List (List ℝ))
    (hss : ss = "symm" ∨ ss = "skew") (hlen : parts.length = Q)
    (hw : width parts = P) :
    BCCB_blocks_spec ss sb Q parts none
      = (parts.map (fun bi => circ_embed_gen P (toeplitz_gen sb bi [])))
        ++ [List.replicate (2 * P) 0]
        ++ (((parts.drop 1).reverse).map (fun bi =>
            circ_embed_gen P (if ss = "skew"
              then (toeplitz_gen sb bi []).map (fun x => -x)
              else toeplitz_gen sb bi []))) := by
  rw [BCCB_blocks_spec, hw, concatenated_blocks_pure ss sb Q parts hss,
    zipWith_dummy]
  rcases hss with rfl | rfl
  · rw [if_neg (by decide)]
    have hmlen : (((parts.map (fun c => toeplitz_gen sb c [])).drop 1).reverse).length
        = Q - 1 := by
      simp [hlen]
    rw [show Q - 1
        = (((parts.map (fun c => toeplitz_gen sb c [])).drop 1).reverse).length
        from hmlen.symm,
      List.drop_left, List.take_left]
    congr 1
    · congr 1
      rw [List.map_map]
      rfl
    · rw [← List.map_drop, ← List.map_reverse, List.map_map]
      refine List.map_congr_left fun bi _ => ?_
      rw [Function.comp_apply, if_neg (by decide)]
  · rw [if_pos rfl]
    have hmlen : ((((parts.map (fun c => toeplitz_gen sb c [])).drop 1).reverse).map
        (fun b => b.map (fun x => -x))).length = Q - 1 := by
      simp [hlen]
    rw [show Q - 1
        = ((((parts.map (fun c => toeplitz_gen sb c [])).drop 1).reverse).map
            (fun b => b.map (fun x => -x))).length
        from hmlen.symm,
      List.drop_left, List.take_left]
    congr 1
    · congr 1
      rw [List.map_map]
      rfl
    · rw [← List.map_drop, ← List.map_reverse, List.map_map, List.map_map]
      refine List.map_congr_left fun bi _ => ?_
      rw [Function.comp_apply, Function.comp_apply, if_pos rfl]

/-- The half-block pieces the compact path concatenates coincide, for each
of the four pure symmetries, with the spec block list of the embedding
BCCB. -/
lemma compact_eq_spec (ss sb : String) (Q P : ℕ) (parts : List (List ℝ))
    (hss : ss = "symm" ∨ ss = "skew") (hsb : sb = "symm" ∨ sb = "skew")
    (hlen : parts.length = Q) (hall : ∀ c ∈ parts, c.length = P)
    (hw : width parts = P) :
    compact_pieces parts P (ss ++ "-" ++ sb)
      = BCCB_blocks_spec ss sb Q parts none := by
  rw [spec_blocks_pure ss sb Q P parts hss hlen hw]
  have hmem_bwd : ∀ bi ∈ (parts.drop 1).reverse, bi.length = P := fun bi hbi =>
    hall bi (List.mem_of_mem_drop (List.mem_reverse.mp hbi))
  rcases hss with rfl | rfl <;> rcases hsb with rfl | rfl
  · rw [show ("symm" ++ "-" ++ "symm" : String) = "symm-symm" from by decide,
      compact_pieces, if_neg (by decide), if_neg (by decide),
      if_neg (by decide)]
    congr 1
    · congr 1
      refine List.map_congr_left fun bi hbi => ?_
      rw [circ_embed_symm P bi (hall bi hbi)]
    · refine List.map_congr_left fun bi hbi => ?_
      rw [if_neg (by decide), circ_embed_symm P bi (hmem_bwd bi hbi)]
  · rw [show ("symm" ++ "-" ++ "skew" : String) = "symm-skew" from by decide,
      compact_pieces, if_neg (by decide), if_neg (by decide),
      if_pos rfl]
    congr 1
    · congr 1
      refine List.map_congr_left fun bi hbi => ?_
      rw [circ_embed_skew P bi (hall bi hbi)]
    · refine List.map_congr_left fun bi hbi => ?_
      rw [if_neg (by decide), circ_embed_skew P bi (hmem_bwd bi hbi)]
  · rw [show ("skew" ++ "-" ++ "symm" : String) = "skew-symm" from by decide,
      compact_pieces, if_neg (by decide), if_pos rfl]
    congr 1
    · congr 1
      refine List.map_congr_left fun bi hbi => ?_
      rw [circ_embed_symm P bi (hall bi hbi)]
    · refine List.map_congr_left fun bi hbi => ?_
      rw [if_pos rfl, circ_embed_symm_neg P bi (hmem_bwd bi hbi)]
  · rw [show ("skew" ++ "-" ++ "skew" : String) = "skew-skew" from by decide,
      compact_pieces, if_pos rfl]
    congr 1
    · congr 1
      refine List.map_congr_left fun bi hbi => ?_
      rw [circ_embed_skew P bi (hall bi hbi)]
    · refine List.map_congr_left fun bi hbi => ?_
      rw [if_pos rfl, circ_embed_skew_neg P bi (hmem_bwd bi hbi)]

/-! ### Claim C9: the transposition factor -/

/-- The full fast pipeline over the compact path: for any of the four pure
symmetries, splitting b0, embedding, diagonalizing and multiplying succeeds
and reproduces the dense product of the BTTB built from the split parts. -/
lemma pipeline_pure (ss sb : String) (hss : ss = "symm" ∨ ss = "skew")
    (hsb : sb = "symm" ∨ sb = "skew") (Q P : ℕ) (hQ : 0 < Q) (hP : 0 < P)
    (b0 v : List ℝ) (hb0 : b0.length = Q * P) (hv : v.length = Q * P) :
    ∃ B E w T,
      embedding_BCCB_first_column b0 Q P (ss ++ "-" ++ sb) = .ok B
      ∧ eigenvalues_BCCB B "row" = .ok E
      ∧ product_BCCB_vector E v true = .ok w
      ∧ generic_BTTB ss sb Q (split_blocks b0 Q P) none true = .ok T
      ∧ w.length = Q * P
      ∧ ∀ a : ℕ, a < Q * P →
          w.getD a 0 = ∑ b in Finset.range (Q * P),
              T.entry a b * v.getD b 0 := by
  have hplen : (split_blocks b0 Q P).length = Q := split_blocks_length b0 Q P
  have hpall : ∀ c ∈ split_blocks b0 Q P, c.length = P := by
    intro l hl
    simp only [split_blocks, List.mem_map, List.mem_range] at hl
    obtain ⟨i, hi, rfl⟩ := hl
    simp only [List.length_take, List.length_drop, hb0]
    have h1 : (i + 1) * P ≤ Q * P := Nat.mul_le_mul_right P hi
    rw [Nat.succ_mul] at h1
    omega
  have hw : width (split_blocks b0 Q P) = P :=
    width_eq _ P (by omega) hpall
  have hsym2 : ss ++ "-" ++ sb ∈ pure_symmetries := by
    rcases hss with rfl | rfl <;> rcases hsb with rfl | rfl <;> decide
  have hmeta : BTTB_metadata_ok ss sb Q (split_blocks b0 Q P) none = true :=
    BTTB_metadata_ok_of_pure ss sb Q P (split_blocks b0 Q P) hss hsb hQ hP
      hplen hpall
  have hB := (embedding_first_column_spec b0 Q P (ss ++ "-" ++ sb) hQ hP hb0
    hsym2).1
  have hcol : (compact_pieces (split_blocks b0 Q P) P (ss ++ "-" ++ sb)).flatten
      = BCCB_first_column_spec ss sb Q (split_blocks b0 Q P) none := by
    rw [BCCB_first_column_spec,
      compact_eq_spec ss sb Q P (split_blocks b0 Q P) hss hsb hplen hpall hw]
  rw [hcol] at hB
  obtain ⟨hcb, hgen⟩ := cb_facts ss sb Q (split_blocks b0 Q P) none hmeta
  rw [hw] at hgen
  have hc0len : (BCCB_first_column_spec ss sb Q
      (split_blocks b0 Q P) none).length = 4 * Q * P :=
    spec_column_length ss sb Q P (split_blocks b0 Q P) none hQ hP hw hcb hgen
  obtain ⟨E, w, hE, hwp, hwlen, hentry⟩ :=
    product_formula (BCCB_first_column_spec ss sb Q
        (split_blocks b0 Q P) none) v Q P (ss ++ "-" ++ sb) hQ hP hc0len
      (pure_mem_nine hsym2) hv
  obtain ⟨T, hT, hTr, hTc, hTent⟩ :=
    generic_BTTB_entry ss sb Q (split_blocks b0 Q P) none hmeta
  rw [hw] at hTent
  refine ⟨_, E, w, T, hB, hE, hwp, hT, hwlen, ?_⟩
  intro a ha
  have hi1 : a / P < Q := by
    rw [Nat.div_lt_iff_lt_mul hP]
    omega
  have hi2 : a % P < P := Nat.mod_lt a hP
  have ha_eq : (a / P) * P + (a % P) = a := by
    rw [Nat.mul_comm]
    exact Nat.div_add_mod a P
  have h1 := hentry (a / P) (a % P) hi1 hi2
  rw [ha_eq] at h1
  rw [h1]
  rw [show (∑ b in Finset.range (Q * P), T.entry a b * v.getD b 0)
      = ∑ b1 in Finset.range Q, ∑ b2 in Finset.range P,
          T.entry a (b1 * P + b2) * v.getD (b1 * P + b2) 0
    from sum_range_mul Q P (fun b => T.entry a b * v.getD b 0)]
  refine Finset.sum_congr rfl fun b1 hb1 => Finset.sum_congr rfl
    fun b2 hb2 => ?_
  have hb1' : b1 < Q := Finset.mem_range.mp hb1
  have hb2' : b2 < P := Finset.mem_range.mp hb2
  rw [hTent a (b1 * P + b2),
    index_div b1 b2 P hP hb2', index_mod b1 b2 P hb2',
    spec_column_getD ss sb Q P (split_blocks b0 Q P) none hQ hP hw hcb
      hgen (a / P) b1 (a % P) b2 hi1 hb1' hi2 hb2']

/-- Transposing the dense pure-symmetry BTTB flips the sign once per skew
tag, provided the entries where the reflection rules degenerate vanish: the
tail of the diagonal-block generating column when the structure is skew,
the first entry of every off-diagonal generating column when the blocks are
skew, and the very first entry when exactly one tag is skew. -/
lemma entry_transpose_flip (ss sb : String) (hss : ss = "symm" ∨ ss = "skew")
    (hsb : sb = "symm" ∨ sb = "skew") (Q P : ℕ) (columns : List (List ℝ))
    (hQ : 0 < Q) (hP : 0 < P) (hlen : columns.length = Q)
    (hall : ∀ c ∈ columns, c.length = P)
    (hz1 : ss = "skew" → ∀ s, 0 < s → s < P →
        (columns.getD 0 []).getD s 0 = 0)
    (hz2 : sb = "skew" → ∀ m, 0 < m → m < Q →
        (columns.getD m []).getD 0 0 = 0)
    (hz0 : ¬ ss = sb → (columns.getD 0 []).getD 0 0 = 0)
    (T : Grid ℝ) (hT : generic_BTTB ss sb Q columns none true = .ok T)
    (a b : ℕ) (ha : a < Q * P) (hb : b < Q * P) :
    T.entry b a = (if ss = "skew" then (-1 : ℝ) else 1)
      * (if sb = "skew" then (-1 : ℝ) else 1) * T.entry a b := by
  have hma : a % P < P := Nat.mod_lt a hP
  have hmb : b % P < P := Nat.mod_lt b hP
  have hda : a / P < Q := by
    rw [Nat.div_lt_iff_lt_mul hP]
    omega
  have hdb : b / P < Q := by
    rw [Nat.div_lt_iff_lt_mul hP]
    omega
  rw [pure_T_entry_dense ss sb Q P columns hss hsb hQ hP hlen hall T hT
      b a hb ha,
    pure_T_entry_dense ss sb Q P columns hss hsb hQ hP hlen hall T hT
      a b ha hb,
    dist_if_comm (a / P) (b / P), dist_if_comm (a % P) (b % P)]
  set cval := (columns.getD
      (if a / P ≤ b / P then b / P - a / P else a / P - b / P) []).getD
    (if a % P ≤ b % P then b % P - a % P else a % P - b % P) 0 with hcval
  have hd1zero : a / P = b / P →
      (if a / P ≤ b / P then b / P - a / P else a / P - b / P) = 0 :=
    fun h1 => by rw [if_pos (le_of_eq h1), h1, Nat.sub_self]
  have hd2zero : a % P = b % P →
      (if a % P ≤ b % P then b % P - a % P else a % P - b % P) = 0 :=
    fun h2 => by rw [if_pos (le_of_eq h2), h2, Nat.sub_self]
  have hz_row : a / P = b / P → a % P ≠ b % P → ss = "skew" → cval = 0 := by
    intro h1 h2 hsk
    rw [hcval, hd1zero h1]
    refine hz1 hsk _ ?_ ?_
    · split <;> omega
    · split <;> omega
  have hz_col : a % P = b % P → a / P ≠ b / P → sb = "skew" → cval = 0 := by
    intro h2 h1 hsk
    rw [hcval, hd2zero h2]
    refine hz2 hsk _ ?_ ?_
    · rcases le_or_lt (a / P) (b / P) with hle | hlt
      · rw [if_pos hle]
        exact Nat.sub_pos_of_lt (lt_of_le_of_ne hle h1)
      · rw [if_neg (show ¬ a / P ≤ b / P by omega)]
        exact Nat.sub_pos_of_lt hlt
    · rcases le_or_lt (a / P) (b / P) with hle | hlt
      · rw [if_pos hle]
        exact lt_of_le_of_lt (Nat.sub_le _ _) hdb
      · rw [if_neg (show ¬ a / P ≤ b / P by omega)]
        exact lt_of_le_of_lt (Nat.sub_le _ _) hda
  have hz_diag : a / P = b / P → a % P = b % P → ¬ ss = sb → cval = 0 := by
    intro h1 h2 hne
    rw [hcval, hd1zero h1, hd2zero h2]
    exact hz0 hne
  rcases hss with rfl | rfl <;> rcases hsb with rfl | rfl
  · simp only [show (("symm" : String) = "skew") = False by decide,
      and_false, if_false]
    ring
  · simp only [show (("symm" : String) = "skew") = False by decide,
      show (("skew" : String) = "skew") = True by decide,
      and_false, and_true, if_false, if_true]
    rcases Nat.lt_trichotomy (a % P) (b % P) with h2 | h2 | h2
    · rw [if_neg (show ¬ b % P < a % P by omega), if_pos h2]
      ring
    · rcases eq_or_ne (a / P) (b / P) with h1 | h1
      · rw [hz_diag h1 h2 (by decide)]
        ring
      · rw [hz_col h2 h1 rfl]
        ring
    · rw [if_pos h2, if_neg (show ¬ a % P < b % P by omega)]
      ring
  · simp only [show (("symm" : String) = "skew") = False by decide,
      show (("skew" : String) = "skew") = True by decide,
      and_false, and_true, if_false, if_true]
    rcases Nat.lt_trichotomy (a / P) (b / P) with h1 | h1 | h1
    · rw [if_neg (show ¬ b / P < a / P by omega), if_pos h1]
      ring
    · rcases eq_or_ne (a % P) (b % P) with h2 | h2
      · rw [hz_diag h1 h2 (by decide)]
        ring
      · rw [hz_row h1 h2 rfl]
        ring
    · rw [if_pos h1, if_neg (show ¬ a / P < b / P by omega)]
      ring
  · simp only [show (("skew" : String) = "skew") = True by decide,
      and_true, if_true]
    rcases Nat.lt_trichotomy (a / P) (b / P) with h1 | h1 | h1
    · rcases Nat.lt_trichotomy (a % P) (b % P) with h2 | h2 | h2
      · rw [if_neg (show ¬ b / P < a / P by omega),
          if_neg (show ¬ b % P < a % P by omega), if_pos h1, if_pos h2]
        ring
      · rw [hz_col h2 (by omega) rfl]
        ring
      · rw [if_neg (show ¬ b / P < a / P by omega), if_pos h2,
          if_pos h1, if_neg (show ¬ a % P < b % P by omega)]
        ring
    · rcases Nat.lt_trichotomy (a % P) (b % P) with h2 | h2 | h2
      · rw [hz_row h1 (by omega) rfl]
        ring
      · rw [if_neg (show ¬ b / P < a / P by omega),
          if_neg (show ¬ b % P < a % P by omega),
          if_neg (show ¬ a / P < b / P by omega),
          if_neg (show ¬ a % P < b % P by omega)]
        ring
      · rw [hz_row h1 (by omega) rfl]
        ring
    · rcases Nat.lt_trichotomy (a % P) (b % P) with h2 | h2 | h2
      · rw [if_pos h1, if_neg (show ¬ b % P < a % P by omega),
          if_neg (show ¬ a / P < b / P by omega), if_pos h2]
        ring
      · rw [hz_col h2 (by omega) rfl]
        ring
      · rw [if_pos h1, if_pos h2,
          if_neg (show ¬ a / P < b / P by omega),
          if_neg (show ¬ a % P < b % P by omega)]
        ring

lemma split_blocks_lengths (b0 : List ℝ) (Q P : ℕ) (hb0 : b0.length = Q * P) :
    ∀ c ∈ split_blocks b0 Q P, c.length = P := by
  intro l hl
  simp only [split_blocks, List.mem_map, List.mem_range] at hl
  obtain ⟨i, hi, rfl⟩ := hl
  simp only [List.length_take, List.length_drop, hb0]
  have h1 : (i + 1) * P ≤ Q * P := Nat.mul_le_mul_right P hi
  rw [Nat.succ_mul] at h1
  omega

/-- C9 (corrected): transposition_factor returns +1 for symm-symm and
skew-skew, -1 for symm-skew and skew-symm, and an error for every other
tag; and for each pure symmetry the factor times the fast-pipeline product
equals the transposed-dense product T^t v — but only under the
degenerate-entry conditions (automatic for kernels genuinely odd in the
skew directions): the tail of the first block of b0 vanishes when the
structure is skew, the first entry of every later block vanishes when the
blocks are skew, and the very first entry vanishes when exactly one tag is
skew.  Without these conditions the law fails (see the counterexample). -/
theorem C9_transposition_factor_law (ss sb : String)
    (hss : ss = "symm" ∨ ss = "skew") (hsb : sb = "symm" ∨ sb = "skew")
    (Q P : ℕ) (hQ : 0 < Q) (hP : 0 < P) (b0 v : List ℝ)
    (hb0 : b0.length = Q * P) (hv : v.length = Q * P)
    (hz1 : ss = "skew" → ∀ s, 0 < s → s < P → b0.getD s 0 = 0)
    (hz2 : sb = "skew" → ∀ m, 0 < m → m < Q → b0.getD (m * P) 0 = 0)
    (hz0 : ¬ ss = sb → b0.getD 0 0 = 0) :
    (transposition_factor "symm-symm" = .ok 1
      ∧ transposition_factor "skew-skew" = .ok 1
      ∧ transposition_factor "symm-skew" = .ok (-1)
      ∧ transposition_factor "skew-symm" = .ok (-1)
      ∧ ∀ s, s ∉ pure_symmetries →
          transposition_factor s = .error "invalid symmetry")
    ∧ ∃ f B E w T,
      transposition_factor (ss ++ "-" ++ sb) = .ok f
      ∧ embedding_BCCB_first_column b0 Q P (ss ++ "-" ++ sb) = .ok B
      ∧ eigenvalues_BCCB B "row" = .ok E
      ∧ product_BCCB_vector E v true = .ok w
      ∧ generic_BTTB ss sb Q (split_blocks b0 Q P) none true = .ok T
      ∧ ∀ a : ℕ, a < Q * P →
          (f : ℝ) * w.getD a 0
            = ∑ b in Finset.range (Q * P), T.entry b a * v.getD b 0 := by
  refine ⟨⟨by rfl, by rfl, by rfl, by rfl,
    fun s hs => by rw [transposition_factor, if_pos hs]⟩, ?_⟩
  obtain ⟨B, E, w, T, hB, hE, hwp, hT, hwlen, hentry⟩ :=
    pipeline_pure ss sb hss hsb Q P hQ hP b0 v hb0 hv
  have hplen := split_blocks_length b0 Q P
  have hz1' : ss = "skew" → ∀ s, 0 < s → s < P →
      ((split_blocks b0 Q P).getD 0 []).getD s 0 = 0 := by
    intro h s hs1 hs2
    rw [split_blocks_entry b0 Q P 0 s hQ hs2]
    simp only [Nat.zero_mul, Nat.zero_add]
    exact hz1 h s hs1 hs2
  have hz2' : sb = "skew" → ∀ m, 0 < m → m < Q →
      ((split_blocks b0 Q P).getD m []).getD 0 0 = 0 := by
    intro h m hm1 hm2
    rw [split_blocks_entry b0 Q P m 0 hm2 hP]
    simp only [Nat.add_zero]
    exact hz2 h m hm1 hm2
  have hz0' : ¬ ss = sb → ((split_blocks b0 Q P).getD 0 []).getD 0 0 = 0 := by
    intro h
    rw [split_blocks_entry b0 Q P 0 0 hQ hP]
    simp only [Nat.zero_mul, Nat.add_zero]
    exact hz0 h
  refine ⟨(if ss = sb then 1 else -1 : ℤ), B, E, w, T, ?_, hB, hE, hwp, hT,
    ?_⟩
  · rcases hss with rfl | rfl <;> rcases hsb with rfl | rfl <;> rfl
  · intro a ha
    rw [hentry a ha, Finset.mul_sum]
    refine Finset.sum_congr rfl fun b hb => ?_
    have hbb : b < Q * P := Finset.mem_range.mp hb
    rw [entry_transpose_flip ss sb hss hsb Q P (split_blocks b0 Q P) hQ hP
      hplen (split_blocks_lengths b0 Q P hb0) hz1' hz2' hz0' T hT a b ha
      hbb]
    have hfs : ((if ss = sb then (1 : ℤ) else -1 : ℤ) : ℝ)
        = (if ss = "skew" then (-1 : ℝ) else 1)
          * (if sb = "skew" then (-1 : ℝ) else 1) := by
      rcases hss with rfl | rfl <;> rcases hsb with rfl | rfl <;>
        norm_num [show (("symm" : String) = "skew") = False by decide,
          show (("skew" : String) = "symm") = False by decide]
    rw [hfs]
    ring

/-- C9 counterexample: with symmetry symm-skew, one 1 x 1 block b0 = [1]
and v = [1] (no degenerate entry vanishes), the dense matrix is T = [[1]],
the fast product is [1], the factor is -1, and -1 times 1 is not the
transposed product 1. -/
theorem C9_counterexample :
    ∃ f B E w T,
      transposition_factor "symm-skew" = .ok f
      ∧ embedding_BCCB_first_column [1] 1 1 "symm-skew" = .ok B
      ∧ eigenvalues_BCCB B "row" = .ok E
      ∧ product_BCCB_vector E [1] true = .ok w
      ∧ generic_BTTB "symm" "skew" 1 (split_blocks [1] 1 1) none true = .ok T
      ∧ T.entry 0 0 = 1 ∧ w.getD 0 0 = 1
      ∧ ¬ (f : ℝ) * w.getD 0 0 = T.entry 0 0 * ([1] : List ℝ).getD 0 0 := by
  obtain ⟨B, E, w, T, hB, hE, hwp, hT, hwlen, hentry⟩ :=
    pipeline_pure "symm" "skew" (Or.inl rfl) (Or.inr rfl) 1 1 one_pos
      one_pos [1] [1] (by simp) (by simp)
  rw [show ("symm" ++ "-" ++ "skew" : String) = "symm-skew" from by decide]
    at hB
  have hsplit : split_blocks ([1] : List ℝ) 1 1 = [[1]] := rfl
  have hTval : T.entry 0 0 = 1 := by
    have hT2 := hT
    rw [hsplit] at hT2
    rw [generic_BTTB_ok (show BTTB_metadata_ok "symm" "skew" 1
      [[1]] none = true from by decide)] at hT2
    injection hT2 with hTeq
    rw [← hTeq]
    norm_num [concatenated_blocks, toeplitz_gen, dummy_rows, width,
      show (("symm" : String) = "skew") = False by decide,
      show (("skew" : String) = "symm") = False by decide]
  have hwval : w.getD 0 0 = 1 := by
    rw [hentry 0 (by norm_num), show (1 * 1 : ℕ) = 1 from rfl,
      Finset.sum_range_one, hTval]
    norm_num
  refine ⟨-1, B, E, w, T, by rfl, hB, hE, hwp, hT, hTval, hwval, ?_⟩
  rw [hwval, hTval]
  norm_num

/-- C9 witness: the amended law applied at the concrete symm-symm input
with one 1 x 1 block, where every degeneracy condition is vacuous. -/
theorem C9_transposition_factor_law_witness :
    (0 < 1 ∧ ([1] : List ℝ).length = 1 * 1)
    ∧ ((transposition_factor "symm-symm" = .ok 1
        ∧ transposition_factor "skew-skew" = .ok 1
        ∧ transposition_factor "symm-skew" = .ok (-1)
        ∧ transposition_factor "skew-symm" = .ok (-1)
        ∧ ∀ s, s ∉ pure_symmetries →
            transposition_factor s = .error "invalid symmetry")
      ∧ ∃ f B E w T,
        transposition_factor ("symm" ++ "-" ++ "symm") = .ok f
        ∧ embedding_BCCB_first_column [1] 1 1 ("symm" ++ "-" ++ "symm")
            = .ok B
        ∧ eigenvalues_BCCB B "row" = .ok E
        ∧ product_BCCB_vector E [1] true = .ok w
        ∧ generic_BTTB "symm" "symm" 1 (split_blocks [1] 1 1) none true
            = .ok T
        ∧ ∀ a : ℕ, a < 1 * 1 →
            (f : ℝ) * w.getD a 0
              = ∑ b in Finset.range (1 * 1),
                  T.entry b a * ([1] : List ℝ).getD b 0) :=
  ⟨⟨by decide, by decide⟩,
    C9_transposition_factor_law "symm" "symm" (Or.inl rfl) (Or.inl rfl) 1 1
      (by decide) (by decide) [1] [1] (by decide) (by decide)
      (fun h => absurd h (by decide))
      (fun h => absurd h (by decide))
      (fun h => absurd h (by decide))⟩

end Gravmag
